import Mathlib

/-!
Verification of the loginus journal-export reader.

This file contains a shallow embedding of the Rust sources
`src/shiftbuffer.rs`, `src/journald.rs` and `src/config.rs` (crate
`loginus`), together with theorems settling the frozen claims about them.

Modelling conventions:
* bytes are natural numbers (the values that occur are < 256);
* `usize`/`u64` arithmetic is `Nat` arithmetic (no overflow is reachable in
  the modelled code paths; `Nat` subtraction is truncated, which agrees with
  the sources wherever the debug assertions of the sources hold);
* fallible operations (Rust panics: failed asserts, out-of-bounds indexing,
  `copy_from_slice` length mismatch) are modelled with `Option`, `none`
  standing for a panic;
* the parse loop of `JournalExportParser::parse` is modelled with explicit
  fuel; `none` also stands for exhausted fuel.  All theorems either evaluate
  on concrete inputs (where the fuel is visibly sufficient) or quantify over
  the fuel.
-/

set_option synthInstance.maxSize 512

namespace Loginus

/-- A byte of the input stream (in practice a value in `0..256`). -/
abbrev Byte := Nat

/-- Newline byte `\n`. -/
def NL : Byte := 10

/-- `ShiftBuffer<u8>` from `src/shiftbuffer.rs`: a backing vector `buf`, the
absolute stream position `offset` mapped to backing index 0, and the window
`[lower, upper]` of valid pointers.  Pointers are absolute stream positions,
modelled as plain `Nat`. -/
structure ShiftBuffer where
  buf : List Byte
  offset : Nat
  lower : Nat
  upper : Nat
deriving DecidableEq, Repr

namespace ShiftBuffer

/-- `ShiftBuffer::new(init_size)`. -/
def new (init_size : Nat) : ShiftBuffer :=
  { buf := List.replicate init_size 0, offset := 0, lower := 0, upper := 0 }

/-- `ShiftBuffer::relative_pos`: `p - self.offset` (usize subtraction; the
debug assertion `lower <= p <= upper` of the source is not modelled). -/
def relative_pos (sb : ShiftBuffer) (p : Nat) : Nat := p - sb.offset

/-- Indexing `sb[p]` (`Index<Pointer>`): `buf[relative_pos p]`; `none` models
the out-of-bounds panic. -/
def indexP (sb : ShiftBuffer) (p : Nat) : Option Byte :=
  sb.buf.get? (sb.relative_pos p)

/-- Range indexing `sb[a..b]` (`Index<Range<Pointer>>`), truncated at the
ends instead of panicking; every use in the modelled code paths is in
bounds. -/
def sliceP (sb : ShiftBuffer) (a b : Nat) : List Byte :=
  (sb.buf.drop (sb.relative_pos a)).take (sb.relative_pos b - sb.relative_pos a)

/-- `ShiftBuffer::shrink(n)`: asserts `lower + n < upper`, then moves the
lower end up; `none` models a failed assert. -/
def shrinkB (sb : ShiftBuffer) (n : Nat) : Option ShiftBuffer :=
  if sb.lower + n < sb.upper then some { sb with lower := sb.lower + n } else none

/-- `ShiftBuffer::extend(n)` (note: `extendB` to avoid clashing with list
extension): asserts `relative_pos upper + n <= buf.len()`, then moves the
upper end up. -/
def extendB (sb : ShiftBuffer) (n : Nat) : Option ShiftBuffer :=
  if sb.relative_pos sb.upper + n ≤ sb.buf.length then
    some { sb with upper := sb.upper + n }
  else none

/-- `ShiftBuffer::shift`: `d = upper.abs() - lower.abs()`; the loop
`for p in 0..d { buf[p] = buf[p + d] }` copies the `d` elements starting at
backing index `d` to index 0 (reads and writes do not overlap since all
writes are below index `d`), then `offset := lower`.  The loop indexes out of
bounds, i.e. panics (`none`), as soon as `d >= 1` and `2*d > buf.len()`. -/
def shiftB (sb : ShiftBuffer) : Option ShiftBuffer :=
  let d := sb.upper - sb.lower
  if d = 0 then some { sb with offset := sb.lower }
  else if 2 * d ≤ sb.buf.length then
    some { sb with buf := (sb.buf.drop d).take d ++ sb.buf.drop d, offset := sb.lower }
  else none

/-- Length of the slice returned by `ShiftBuffer::free()`:
`buf[relative_pos upper ..]`. -/
def freeLen (sb : ShiftBuffer) : Nat := sb.buf.length - sb.relative_pos sb.upper

/-- `ShiftBuffer::make_room`: if the window reaches the end of the backing
store, either double the store (when `lower == offset`) or shift; the Rust
function then returns `free()`, which the model exposes via `freeLen` on the
result. -/
def make_room (sb : ShiftBuffer) : Option ShiftBuffer :=
  if sb.relative_pos sb.upper = sb.buf.length then
    if sb.lower = sb.offset then
      some { sb with buf := sb.buf ++ List.replicate sb.buf.length 0 }
    else sb.shiftB
  else some sb

/-- `ShiftBuffer::clone_window`: an independent buffer holding a copy of the
current window. -/
def clone_window (sb : ShiftBuffer) : ShiftBuffer :=
  { buf := sb.sliceP sb.lower sb.upper, offset := sb.lower,
    lower := sb.lower, upper := sb.upper }

/-- Writing `bs` into the leading part of the slice returned by `free()`
(this is what the I/O adapters do between `make_room`/`Underfilled` and
`extend`); `none` when `bs` does not fit into the free space. -/
def writeFree (sb : ShiftBuffer) (bs : List Byte) : Option ShiftBuffer :=
  if sb.relative_pos sb.upper + bs.length ≤ sb.buf.length then
    some { sb with
      buf := sb.buf.take (sb.relative_pos sb.upper) ++ bs ++
             sb.buf.drop (sb.relative_pos sb.upper + bs.length) }
  else none

end ShiftBuffer

/-! ## The journal-export parser (`src/journald.rs`) and its configuration
(`src/config.rs`). -/

/-- `JournalExportLimits` from `src/config.rs`. -/
structure JournalExportLimits where
  max_field_value_size : Nat
  max_field_name_len : Nat
  max_entry_size : Nat
deriving DecidableEq, Repr

/-- `JournalExportLimits::default()`. -/
def JournalExportLimits.default : JournalExportLimits :=
  { max_field_value_size := 12 * 1024, max_field_name_len := 128,
    max_entry_size := 16384 }

/-- `DEFAULT_BUF_SIZE = 1 << 14` from `src/journald.rs`. -/
def DEFAULT_BUF_SIZE : Nat := 16384

/-- `JournalExportReadError` from `src/journald.rs` (the payload of
`IoError` is not modelled; the modelled byte sources never fail). -/
inductive JournalExportReadError where
  | IoError
  | UnexpectedCharacter (b : Byte)
  | UnexpectedEof
  | FieldNameTooLong
  | FieldValueTooLong
  | EntryTooLarge
deriving DecidableEq, Repr

/-- `parser::FieldType`. -/
inductive FieldType where
  | Binary
  | String
deriving DecidableEq, Repr

/-- `parser::FieldOffset`. -/
structure FieldOffset where
  start : Nat
  namelen : Nat
  typ : FieldType
deriving DecidableEq, Repr

/-- `parser::ParserState`. -/
inductive ParserState where
  | EntryStart
  | FieldStart
  | Fieldname
  | BinaryValueLen
  | BinaryValue
  | StringField
  | Eof
deriving DecidableEq, Repr

/-- `parser::BufferState`. -/
inductive BufferState where
  | Underfilled
  | Filled
deriving DecidableEq, Repr

/-- `parser::ParseResult` (the `Underfilled` payload, a view of the free
part of the buffer, stays implicit: the drivers below read it off the
parser's buffer). -/
inductive ParseResult where
  | Ok
  | Err (e : JournalExportReadError)
  | Underfilled
  | Eof
deriving DecidableEq, Repr

/-- `u8::is_ascii_alphabetic`. -/
def isAlphaB (c : Byte) : Bool :=
  (65 ≤ c && c ≤ 90) || (97 ≤ c && c ≤ 122)

/-- `u8::is_ascii_alphanumeric`. -/
def isAlnumB (c : Byte) : Bool :=
  isAlphaB c || (48 ≤ c && c ≤ 57)

/-- `u64::from_le_bytes`, on a little-endian list of bytes. -/
def leDecode : List Byte → Nat
  | [] => 0
  | b :: rest => b + 256 * leDecode rest

/-- The 8-byte little-endian encoding of `k` (used by the wire grammar for
binary field lengths). -/
def le8 (k : Nat) : List Byte :=
  (List.range 8).map fun i => k / 256 ^ i % 256

/-- `parser::JournalExportParser`. -/
structure JournalExportParser where
  buf : ShiftBuffer
  entry_start : Nat
  field_start : Nat
  cursor : Nat
  namelen : Nat
  remaining : Nat
  parse_state : ParserState
  buffer_state : BufferState
  field_offsets : List FieldOffset
  limits : JournalExportLimits
deriving DecidableEq, Repr

namespace JournalExportParser

/-- `JournalExportParser::new(limits, buf_size)`. -/
def new (limits : JournalExportLimits) (buf_size : Nat) : JournalExportParser :=
  let buf := ShiftBuffer.new buf_size
  { buf, entry_start := buf.lower, field_start := buf.lower,
    cursor := buf.lower, namelen := 0, remaining := 0,
    parse_state := .FieldStart, buffer_state := .Underfilled,
    field_offsets := [], limits }

/-- `JournalExportParser::clear_entry`. -/
def clear_entry (p : JournalExportParser) : JournalExportParser :=
  { p with field_offsets := [] }

/-- `JournalExportParser::eof_and_return`. -/
def eof_and_return (p : JournalExportParser) (e : JournalExportReadError) :
    JournalExportParser × ParseResult :=
  ({ p with parse_state := .Eof }, .Err e)

end JournalExportParser

/-- Outcome of one iteration of the `loop` in
`JournalExportParser::parse`: panic, `return` with a result, or continue
looping with an updated parser. -/
inductive StepOut where
  | Panic
  | Ret (r : JournalExportParser × ParseResult)
  | Cont (p : JournalExportParser)
deriving DecidableEq, Repr

/-- One iteration of the `loop` in `JournalExportParser::parse`
(`src/journald.rs`, lines 91-225): `Ret` models the `return` statements,
`Cont` falling through to the next iteration, `Panic` an out-of-bounds
buffer access or a `copy_from_slice` length mismatch. -/
def parseStep (p : JournalExportParser) : StepOut :=
  -- If the cursor reached the upper end of the window, ask the caller
  -- for more bytes.
  if p.cursor = p.buf.upper then
    if p.buffer_state = .Filled then
      if p.parse_state = .EntryStart then .Ret (p, .Eof)
      else .Ret (p, .Err .UnexpectedEof)
    else
      match p.buf.make_room with
      | none => .Panic
      | some b => .Ret ({ p with buf := b, buffer_state := .Filled }, .Underfilled)
  else
    match p.buf.indexP p.cursor with
    | none => .Panic
    | some c =>
      let p := { p with buffer_state := .Underfilled }
      match p.parse_state with
      | .EntryStart =>
        if isAlphaB c || c == 95 then
          .Cont { p with entry_start := p.cursor, field_start := p.cursor,
                         cursor := p.cursor + 1, parse_state := .Fieldname }
        else .Ret (p.eof_and_return (.UnexpectedCharacter c))
      | .FieldStart =>
        if c == NL then
          if p.field_offsets.isEmpty then
            .Ret (p.eof_and_return (.UnexpectedCharacter c))
          else
            .Ret ({ p with cursor := p.cursor + 1, parse_state := .EntryStart }, .Ok)
        else if isAlnumB c || c == 95 then
          .Cont { p with field_start := p.cursor, cursor := p.cursor + 1,
                         parse_state := .Fieldname }
        else .Ret (p.eof_and_return (.UnexpectedCharacter c))
      | .Fieldname =>
        let p := { p with namelen := p.cursor - p.field_start }
        if p.namelen > p.limits.max_field_name_len then
          .Ret (p.eof_and_return .FieldNameTooLong)
        else
          let p := { p with cursor := p.cursor + 1 }
          if isAlnumB c || c == 95 then
            .Cont { p with parse_state := .Fieldname }
          else if c == 61 then
            .Cont { p with parse_state := .StringField }
          else if c == NL then
            .Cont { p with parse_state := .BinaryValueLen }
          else
            .Ret ({ p with cursor := p.cursor - 1 }.eof_and_return (.UnexpectedCharacter c))
      | .BinaryValueLen =>
        -- [fieldname] NL [64 bit le integer]: the length field stops at
        -- `field_start + namelen + 9`.
        let len_stop := p.field_start + p.namelen + 9
        let p := { p with cursor := min p.buf.upper len_stop }
        if p.cursor < len_stop || p.cursor == p.buf.upper then
          .Cont { p with parse_state := .BinaryValueLen }
        else
          let bytes := p.buf.sliceP (len_stop - 8) len_stop
          if bytes.length = 8 then
            let p := { p with remaining := leDecode bytes }
            if p.remaining > p.limits.max_field_value_size then
              .Ret (p.eof_and_return .FieldValueTooLong)
            else
              .Cont { p with parse_state := .BinaryValue }
          else .Panic
      | .BinaryValue =>
        let stop_pos := p.field_start + p.namelen + 9 + p.remaining
        if p.cursor < stop_pos then
          .Cont { p with cursor := min p.buf.upper stop_pos,
                         parse_state := .BinaryValue }
        else if c ≠ NL then
          .Ret (p.eof_and_return (.UnexpectedCharacter c))
        else
          .Cont { p with cursor := p.cursor + 1,
                         field_offsets := p.field_offsets ++
                           [⟨p.field_start, p.namelen, .Binary⟩],
                         parse_state := .FieldStart }
      | .StringField =>
        let p := { p with cursor := p.cursor + 1 }
        if c == NL then
          .Cont { p with field_offsets := p.field_offsets ++
                           [⟨p.field_start, p.namelen, .String⟩],
                         parse_state := .FieldStart }
        else if p.cursor - p.field_start - p.namelen - 1 > p.limits.max_field_value_size then
          .Ret ({ p with cursor := p.cursor - 1 }.eof_and_return .FieldValueTooLong)
        else
          .Cont { p with parse_state := .StringField }
      | .Eof => .Ret (p, .Eof)

/-- `JournalExportParser::parse`: the loop, iterating `parseStep` with
explicit fuel (one unit of fuel per iteration); `none` models a panic or
exhausted fuel, and the fuel is always chosen large enough in the theorems
below. -/
def parseLoop : Nat → JournalExportParser → Option (JournalExportParser × ParseResult)
  | 0, _ => none
  | fuel + 1, p =>
    match parseStep p with
    | .Panic => none
    | .Ret r => some r
    | .Cont p2 => parseLoop fuel p2

/-! ## Entry views (`parser::RefEntry`, `parser::OwnedEntry`,
`parser::FieldIter`). -/

/-- `RefEntry::as_bytes` (through the `Entry` trait): indexes
`field_offsets[0]`, which panics (`none`) when the offset list is empty,
then slices `buf[start .. cursor]`. -/
def RefEntry.as_bytes (p : JournalExportParser) : Option (List Byte) :=
  match p.field_offsets with
  | [] => none
  | f :: _ => some (p.buf.sliceP f.start p.cursor)

/-- `parser::OwnedEntry`. -/
structure OwnedEntry where
  cursor : Nat
  buf : ShiftBuffer
  offsets : List FieldOffset
deriving DecidableEq, Repr

/-- `RefEntry::to_owned`. -/
def RefEntry.to_owned (p : JournalExportParser) : OwnedEntry :=
  { cursor := p.cursor, buf := p.buf.clone_window, offsets := p.field_offsets }

/-- `OwnedEntry::as_bytes`: same indexing, panics (`none`) on an empty
offset list. -/
def OwnedEntry.as_bytes (e : OwnedEntry) : Option (List Byte) :=
  match e.offsets with
  | [] => none
  | f :: _ => some (e.buf.sliceP f.start e.cursor)

/-- `parser::next`, the worker of `FieldIter::next`: the field at position
`index`, as a `(name, value, type)` triple. -/
def nextField (buf : ShiftBuffer) (stop : Nat) (offsets : List FieldOffset)
    (index : Nat) : Option (List Byte × List Byte × FieldType) :=
  if index = offsets.length then none
  else
    let field_stop :=
      if index = offsets.length - 1 then
        -- the cursor points at the first byte after the entry; cursor - 2
        -- is the NL terminating the last field
        stop - 2
      else
        match offsets.get? (index + 1) with
        | some f2 => f2.start - 1
        | none => 0
    match offsets.get? index with
    | none => none
    | some f =>
      let bin_offset : Nat := match f.typ with | .Binary => 9 | .String => 1
      some (buf.sliceP f.start (f.start + f.namelen),
            buf.sliceP (f.start + f.namelen + bin_offset) field_stop,
            f.typ)

/-- The full sequence produced by `RefEntry::iter` (driving
`FieldIter::next` from index 0 until it yields `None`). -/
def entryFields (p : JournalExportParser) : List (List Byte × List Byte × FieldType) :=
  (List.range p.field_offsets.length).filterMap
    (nextField p.buf p.cursor p.field_offsets)

/-! ## The synchronous driver (`sync::JournalExportRead`).

The byte source is modelled as the list of bytes still to be delivered,
together with a chunk schedule `σ : Nat → Nat`: the `k`-th call to
`Read::read` on a slice of length `m` returns `min (σ k) (min m remaining)`
bytes (a file-like source: it returns 0 only when exhausted, provided
`σ k > 0` and `m > 0`).  Feeding the whole input in one chunk corresponds
to a schedule that is everywhere at least the input length. -/

/-- `sync::JournalExportRead`: the byte source (remaining bytes) plus the
parser. -/
structure JournalExportRead where
  input : List Byte
  parse_state : JournalExportParser
deriving DecidableEq, Repr

/-- `JournalExportRead::new_with_limits(limits, input)`, generalised over
the buffer size (the source fixes `DEFAULT_BUF_SIZE`). -/
def JournalExportRead.mk0 (limits : JournalExportLimits) (buf_size : Nat)
    (input : List Byte) : JournalExportRead :=
  { input, parse_state := JournalExportParser.new limits buf_size }

/-- `JournalExportRead::new(input)`: default limits and
`DEFAULT_BUF_SIZE`. -/
def JournalExportRead.new (input : List Byte) : JournalExportRead :=
  JournalExportRead.mk0 JournalExportLimits.default DEFAULT_BUF_SIZE input

/-- The `loop` inside `JournalExportRead::parse_next`, with explicit fuel
for its iterations and for each inner `parse` call.  On `Underfilled` it
reads a chunk into the free slice and extends the window.  Returns the
result of `parse_next` (`Except` models `Result`, `Option Unit` the
`Option<()>`), the new reader state, and the new read-call counter. -/
def parseNextLoop (σ : Nat → Nat) (pf : Nat) :
    Nat → Nat → JournalExportRead →
    Option (Except JournalExportReadError (Option Unit) × JournalExportRead × Nat)
  | 0, _, _ => none
  | fuel + 1, k, st =>
    match parseLoop pf st.parse_state with
    | none => none
    | some (p, r) =>
      match r with
      | .Ok => some (.ok (some ()), { st with parse_state := p }, k)
      | .Eof => some (.ok none, { st with parse_state := p }, k)
      | .Err e => some (.error e, { st with parse_state := p }, k)
      | .Underfilled =>
        let n := min (σ k) (min p.buf.freeLen st.input.length)
        match p.buf.writeFree (st.input.take n) with
        | none => none
        | some b =>
          match b.extendB n with
          | none => none
          | some b2 =>
            parseNextLoop σ pf fuel (k + 1)
              { input := st.input.drop n, parse_state := { p with buf := b2 } }

/-- `JournalExportRead::parse_next`: clears the previous entry, then runs
the loop. -/
def parse_next (σ : Nat → Nat) (pf fuel k : Nat) (st : JournalExportRead) :
    Option (Except JournalExportReadError (Option Unit) × JournalExportRead × Nat) :=
  parseNextLoop σ pf fuel k { st with parse_state := st.parse_state.clear_entry }

/-- What a consumer observes of one completed entry through `get_entry()`:
the `as_bytes()` view and the field iteration. -/
def observeEntry (st : JournalExportRead) :
    Option (List Byte) × List (List Byte × List Byte × FieldType) :=
  (RefEntry.as_bytes st.parse_state, entryFields st.parse_state)

/-- The terminal outcome of driving the reader to completion. -/
inductive Terminal where
  | Clean
  | Fail (e : JournalExportReadError)
deriving DecidableEq, Repr

/-- Repeatedly call `parse_next` until it reports end of stream or an
error, collecting the observation of each completed entry. -/
def runAll (σ : Nat → Nat) (pf dfuel : Nat) :
    Nat → Nat → JournalExportRead →
    Option (List (Option (List Byte) × List (List Byte × List Byte × FieldType)) × Terminal)
  | 0, _, _ => none
  | fuel + 1, k, st =>
    match parse_next σ pf dfuel k st with
    | none => none
    | some (.ok (some _), st2, k2) =>
      match runAll σ pf dfuel fuel k2 st2 with
      | none => none
      | some (obs, t) => some (observeEntry st2 :: obs, t)
    | some (.ok none, _, _) => some ([], .Clean)
    | some (.error e, _, _) => some ([], .Fail e)

deriving instance DecidableEq for Except

/-- A parser state as it stands right after the entry `A=b` followed by the
blank line has been parsed out of an 8-byte buffer (used to instantiate
theorems about non-empty entries at a concrete state). -/
def sampleEntryParser : JournalExportParser :=
  { buf := { buf := [65, 61, 98, 10, 10, 0, 0, 0], offset := 0, lower := 0, upper := 5 },
    entry_start := 0, field_start := 0, cursor := 5, namelen := 1, remaining := 0,
    parse_state := .EntryStart, buffer_state := .Underfilled,
    field_offsets := [⟨0, 1, .String⟩], limits := JournalExportLimits.default }


/-- A parser state as it stands after the single byte `!` (33) has been
fed into an 8-byte buffer but before parsing it (used to instantiate the
error-state theorems at a concrete failing parse). -/
def errorSampleParser : JournalExportParser :=
  { buf := { buf := [33, 0, 0, 0, 0, 0, 0, 0], offset := 0, lower := 0, upper := 1 },
    entry_start := 0, field_start := 0, cursor := 0, namelen := 0, remaining := 0,
    parse_state := .FieldStart, buffer_state := .Underfilled,
    field_offsets := [], limits := JournalExportLimits.default }

/-- The same parser after `parse` has failed with `UnexpectedCharacter 33`
(the state `eof_and_return` leaves behind). -/
def erredSampleParser : JournalExportParser :=
  { errorSampleParser with parse_state := .Eof }


/-- A parser scanning the text value of `A=` with `max_field_value_size`
2, positioned at the first value byte of `A=bbb` (used to instantiate the
value-limit theorem). -/
def stringOverflowParser : JournalExportParser :=
  { buf := { buf := [65, 61, 98, 98, 98, 10, 0, 0], offset := 0, lower := 0, upper := 6 },
    entry_start := 0, field_start := 0, cursor := 2, namelen := 1, remaining := 0,
    parse_state := .StringField, buffer_state := .Underfilled,
    field_offsets := [],
    limits := { max_field_value_size := 2, max_field_name_len := 100, max_entry_size := 100 } }

/-- A parser scanning the binary length field of `K` NL `le8 3` with
`max_field_value_size` 2, with the full length field plus one byte in the
window (used to instantiate the declared-length theorem). -/
def binaryOverflowParser : JournalExportParser :=
  { buf := { buf := [75, 10, 3, 0, 0, 0, 0, 0, 0, 0, 99, 0, 0, 0, 0, 0],
             offset := 0, lower := 0, upper := 11 },
    entry_start := 0, field_start := 0, cursor := 2, namelen := 1, remaining := 0,
    parse_state := .BinaryValueLen, buffer_state := .Underfilled,
    field_offsets := [],
    limits := { max_field_value_size := 2, max_field_name_len := 100, max_entry_size := 100 } }

/-! ## The abstract core machine

A proof artifact (not part of the source): the parser state machine with
the `ShiftBuffer` abstracted away.  It reads bytes directly from the whole
input list and suspends when the cursor reaches an explicit `bound` (the
number of bytes delivered so far).  The correspondence with the real
`parseStep`/`parseLoop` over the sliding window is proved below; it is the
backbone of the chunking-independence and round-trip theorems. -/

/-- The parser fields that survive a suspension (everything except the
buffer and the backpressure flag). -/
structure Core where
  entry_start : Nat
  field_start : Nat
  cursor : Nat
  namelen : Nat
  remaining : Nat
  state : ParserState
  offsets : List FieldOffset
deriving DecidableEq, Repr

/-- Projection of a parser state onto its core. -/
def Core.of (p : JournalExportParser) : Core :=
  ⟨p.entry_start, p.field_start, p.cursor, p.namelen, p.remaining,
    p.parse_state, p.field_offsets⟩

/-- Results of a core run: like `ParseResult`, with `Suspend` in place of
`Underfilled` (the cursor reached the bound), and `CleanEof` in place of
the `Eof` result. -/
inductive CoreRes where
  | Ok
  | Err (e : JournalExportReadError)
  | Suspend
  | CleanEof
deriving DecidableEq, Repr

/-- Outcome of one core step. -/
inductive CoreOut where
  | Panic
  | Ret (r : Core × CoreRes)
  | Cont (s : Core)
deriving DecidableEq, Repr

/-- `input[a..b]` as a plain list slice. -/
def sliceL (input : List Byte) (a b : Nat) : List Byte :=
  (input.drop a).take (b - a)

/-- One iteration of the parse loop on the abstracted state: identical
branch structure to `parseStep`, with `input.get?` in place of buffer
indexing and `bound` in place of the window's upper end. -/
def coreStep (lim : JournalExportLimits) (input : List Byte) (bound : Nat)
    (s : Core) : CoreOut :=
  if s.cursor = bound then .Ret (s, .Suspend)
  else
    match input.get? s.cursor with
    | none => .Panic
    | some c =>
      match s.state with
      | .EntryStart =>
        if isAlphaB c || c == 95 then
          .Cont { s with entry_start := s.cursor, field_start := s.cursor,
                         cursor := s.cursor + 1, state := .Fieldname }
        else .Ret ({ s with state := .Eof }, .Err (.UnexpectedCharacter c))
      | .FieldStart =>
        if c == NL then
          if s.offsets.isEmpty then
            .Ret ({ s with state := .Eof }, .Err (.UnexpectedCharacter c))
          else
            .Ret ({ s with cursor := s.cursor + 1, state := .EntryStart }, .Ok)
        else if isAlnumB c || c == 95 then
          .Cont { s with field_start := s.cursor, cursor := s.cursor + 1,
                         state := .Fieldname }
        else .Ret ({ s with state := .Eof }, .Err (.UnexpectedCharacter c))
      | .Fieldname =>
        let s := { s with namelen := s.cursor - s.field_start }
        if s.namelen > lim.max_field_name_len then
          .Ret ({ s with state := .Eof }, .Err .FieldNameTooLong)
        else
          let s := { s with cursor := s.cursor + 1 }
          if isAlnumB c || c == 95 then
            .Cont { s with state := .Fieldname }
          else if c == 61 then
            .Cont { s with state := .StringField }
          else if c == NL then
            .Cont { s with state := .BinaryValueLen }
          else
            .Ret ({ s with cursor := s.cursor - 1, state := .Eof },
                  .Err (.UnexpectedCharacter c))
      | .BinaryValueLen =>
        let len_stop := s.field_start + s.namelen + 9
        let s := { s with cursor := min bound len_stop }
        if s.cursor < len_stop || s.cursor == bound then
          .Cont { s with state := .BinaryValueLen }
        else
          let bytes := sliceL input (len_stop - 8) len_stop
          if bytes.length = 8 then
            let s := { s with remaining := leDecode bytes }
            if s.remaining > lim.max_field_value_size then
              .Ret ({ s with state := .Eof }, .Err .FieldValueTooLong)
            else
              .Cont { s with state := .BinaryValue }
          else .Panic
      | .BinaryValue =>
        let stop_pos := s.field_start + s.namelen + 9 + s.remaining
        if s.cursor < stop_pos then
          .Cont { s with cursor := min bound stop_pos, state := .BinaryValue }
        else if c ≠ NL then
          .Ret ({ s with state := .Eof }, .Err (.UnexpectedCharacter c))
        else
          .Cont { s with cursor := s.cursor + 1,
                         offsets := s.offsets ++ [⟨s.field_start, s.namelen, .Binary⟩],
                         state := .FieldStart }
      | .StringField =>
        let s := { s with cursor := s.cursor + 1 }
        if c == NL then
          .Cont { s with offsets := s.offsets ++ [⟨s.field_start, s.namelen, .String⟩],
                         state := .FieldStart }
        else if s.cursor - s.field_start - s.namelen - 1 > lim.max_field_value_size then
          .Ret ({ s with cursor := s.cursor - 1, state := .Eof }, .Err .FieldValueTooLong)
        else
          .Cont { s with state := .StringField }
      | .Eof => .Ret (s, .CleanEof)

/-- Fueled iteration of `coreStep`. -/
def coreRun (lim : JournalExportLimits) (input : List Byte) (bound : Nat) :
    Nat → Core → Option (Core × CoreRes)
  | 0, _ => none
  | fuel + 1, s =>
    match coreStep lim input bound s with
    | .Panic => none
    | .Ret r => some r
    | .Cont s2 => coreRun lim input bound fuel s2

/-- `parser::next` over the plain input list (mirror of `nextField`). -/
def nextFieldL (input : List Byte) (stop : Nat) (offsets : List FieldOffset)
    (index : Nat) : Option (List Byte × List Byte × FieldType) :=
  if index = offsets.length then none
  else
    let field_stop :=
      if index = offsets.length - 1 then stop - 2
      else
        match offsets.get? (index + 1) with
        | some f2 => f2.start - 1
        | none => 0
    match offsets.get? index with
    | none => none
    | some f =>
      let bin_offset : Nat := match f.typ with | .Binary => 9 | .String => 1
      some (sliceL input f.start (f.start + f.namelen),
            sliceL input (f.start + f.namelen + bin_offset) field_stop,
            f.typ)

/-- The field iteration over the plain input list. -/
def entryFieldsL (input : List Byte) (stop : Nat) (offsets : List FieldOffset) :
    List (List Byte × List Byte × FieldType) :=
  (List.range offsets.length).filterMap (nextFieldL input stop offsets)

/-- The entry observation computed from the plain input list. -/
def coreObserve (input : List Byte) (s : Core) :
    Option (List Byte) × List (List Byte × List Byte × FieldType) :=
  (match s.offsets with
   | [] => none
   | f :: _ => some (sliceL input f.start s.cursor),
   entryFieldsL input s.cursor s.offsets)

/-- The driver loop on the abstract machine: the bound is the whole input,
a suspension therefore means the source is exhausted, which the sync
driver turns into clean end-of-stream at `EntryStart` and `UnexpectedEof`
elsewhere. -/
def coreRunAll (lim : JournalExportLimits) (input : List Byte) (pf : Nat) :
    Nat → Core →
    Option (List (Option (List Byte) × List (List Byte × List Byte × FieldType)) × Terminal)
  | 0, _ => none
  | fuel + 1, s =>
    match coreRun lim input input.length pf { s with offsets := [] } with
    | none => none
    | some (s2, .Ok) =>
      match coreRunAll lim input pf fuel s2 with
      | none => none
      | some (obs, t) => some (coreObserve input s2 :: obs, t)
    | some (_, .Err e) => some ([], .Fail e)
    | some (s2, .Suspend) =>
      if s2.state = .EntryStart then some ([], .Clean)
      else some ([], .Fail .UnexpectedEof)
    | some (_, .CleanEof) => some ([], .Clean)


/-! ## The wire-format grammar (spec side, for the round-trip claim)

These definitions follow the journal export wire format as the
specification describes it: an entry is a non-empty sequence of fields
followed by a blank line; a text field is `name '=' value NL`; a binary
field is `name NL le64(len) payload NL`. -/

/-- A field of an entry, as written by a producer. -/
inductive FieldV where
  | text (name value : List Byte)
  | binary (name payload : List Byte)
deriving DecidableEq, Repr

/-- The wire bytes of one field. -/
def FieldV.bytes : FieldV → List Byte
  | .text n v => n ++ (61 :: (v ++ [NL]))
  | .binary n p => n ++ (NL :: (le8 p.length ++ (p ++ [NL])))

/-- The field's name. -/
def FieldV.name : FieldV → List Byte
  | .text n _ => n
  | .binary n _ => n

/-- Conformance of one field to the grammar and the configured limits:
the name is non-empty, consists of alphanumerics and `_`, and respects the
name-length cap; a text value holds no newline and respects the value-size
cap; a binary payload respects the value-size cap and its length fits the
8-byte length field.  (The additional restriction that an entry's first
field name start alphabetic or `_` is per entry, see `entryHeadAlpha`.) -/
def validField (lim : JournalExportLimits) : FieldV → Prop
  | .text n v => (∃ c0 n2, n = c0 :: n2 ∧ (isAlnumB c0 || c0 == 95) = true) ∧
      (∀ c ∈ n, (isAlnumB c || c == 95) = true) ∧
      n.length ≤ lim.max_field_name_len ∧
      (∀ c ∈ v, c ≠ NL) ∧ v.length ≤ lim.max_field_value_size
  | .binary n p => (∃ c0 n2, n = c0 :: n2 ∧ (isAlnumB c0 || c0 == 95) = true) ∧
      (∀ c ∈ n, (isAlnumB c || c == 95) = true) ∧
      n.length ≤ lim.max_field_name_len ∧
      p.length ≤ lim.max_field_value_size ∧ p.length < 2 ^ 64

/-- The grammar's per-entry restriction: the first byte of the entry's
FIRST field name must be alphabetic or `_` (later field names may start
with a digit). -/
def entryHeadAlpha : List FieldV → Prop
  | [] => True
  | f :: _ => ∃ c0 n2, f.name = c0 :: n2 ∧ (isAlphaB c0 || c0 == 95) = true

/-- A valid entry: at least one field, all conformant, and the first
field's name starts alphabetic or `_`. -/
def validEntry (lim : JournalExportLimits) (fs : List FieldV) : Prop :=
  fs ≠ [] ∧ entryHeadAlpha fs ∧ ∀ f ∈ fs, validField lim f

/-- The wire bytes of one entry: the fields followed by the blank-line
terminator. -/
def entryBytes (fs : List FieldV) : List Byte :=
  (fs.map FieldV.bytes).flatten ++ [NL]

/-- `bs` occupies positions `[pos, pos + bs.length)` of the input. -/
def bytesAt (input : List Byte) (pos : Nat) (bs : List Byte) : Prop :=
  pos + bs.length ≤ input.length ∧
  ∀ i, i < bs.length → input.get? (pos + i) = bs.get? i

/-- `s2` is reachable from `s` by core steps that continue the loop: any
core-run outcome from `s2` is an outcome from `s`. -/
def Reaches (lim : JournalExportLimits) (input : List Byte) (bound : Nat)
    (s s2 : Core) : Prop :=
  ∀ F r, coreRun lim input bound F s2 = some r →
    ∃ F2, coreRun lim input bound F2 s = some r

/-- Invariant tying a parser state to the input stream it has been fed
from: the window starts at absolute position 0 (`offset = lower = 0`, which
holds throughout since the parser never calls `shrink`), the window is the
prefix of the input delivered so far, and the cursor is inside the
window. -/
structure WindowInv (input : List Byte) (p : JournalExportParser) : Prop where
  off0 : p.buf.offset = 0
  low0 : p.buf.lower = 0
  upLen : p.buf.upper ≤ p.buf.buf.length
  upInput : p.buf.upper ≤ input.length
  agree : p.buf.buf.take p.buf.upper = input.take p.buf.upper
  curUp : p.cursor ≤ p.buf.upper

/-- Invariant carried by the synchronous driver between `parse_next`
calls: the window shows the delivered prefix of the input, the source holds
exactly the rest, the backing store is non-trivial, and the parser is ready
to be driven (not stuck at the window end in the `Filled` state). -/
def DriverInv (input : List Byte) (st : JournalExportRead) : Prop :=
  WindowInv input st.parse_state ∧
  st.input = input.drop st.parse_state.buf.upper ∧
  0 < st.parse_state.buf.buf.length ∧
  (st.parse_state.buffer_state = .Underfilled ∨
    st.parse_state.cursor < st.parse_state.buf.upper)

/-- Structural well-formedness of a core state: recorded field offsets lie
strictly below the cursor, and the state-specific cursor bookkeeping of the
scanner holds.  It is preserved by every step and makes the entry
observation depend only on the input prefix below the cursor. -/
def CoreWF (s : Core) : Prop :=
  (∀ f ∈ s.offsets, f.start + f.namelen + 1 ≤ s.cursor) ∧
  (s.state = .Fieldname → s.field_start ≤ s.cursor) ∧
  (s.state = .StringField → s.field_start + s.namelen + 1 ≤ s.cursor) ∧
  (s.state = .BinaryValueLen → s.cursor ≤ s.field_start + s.namelen + 9)

/-- The `Result` value `parse_next` produces for a given core-run result
(a suspension at the end of the whole input is end-of-source: clean at
`EntryStart`, truncated otherwise). -/
def driverOutcome (s2 : Core) : CoreRes → Except JournalExportReadError (Option Unit)
  | .Ok => .ok (some ())
  | .Err e => .error e
  | .CleanEof => .ok none
  | .Suspend => if s2.state = .EntryStart then .ok none else .error .UnexpectedEof

/-- How core-run results appear as `ParseResult`s of the real parser. -/
def mapCoreRes : CoreRes → ParseResult
  | .Ok => .Ok
  | .Err e => .Err e
  | .Suspend => .Underfilled
  | .CleanEof => .Eof

/-- Relation between the outcome of one core step (at bound `upper`) and
the corresponding real parser step: continues and returns correspond
one-to-one, a suspension corresponds to the `Underfilled` return with
`make_room` applied to the buffer. -/
def CoreOutRel (input : List Byte) (p : JournalExportParser) : CoreOut → Prop
  | .Panic => True
  | .Cont s2 =>
      ∃ p2, parseStep p = .Cont p2 ∧ Core.of p2 = s2 ∧ p2.buf = p.buf ∧
        p2.limits = p.limits ∧ p2.buffer_state = .Underfilled ∧
        s2.cursor ≤ p.buf.upper
  | .Ret (s2, .Suspend) =>
      s2 = Core.of p ∧ ∃ b2, p.buf.make_room = some b2 ∧
        parseStep p = .Ret ({ p with buf := b2, buffer_state := .Filled }, .Underfilled)
  | .Ret (s2, .Ok) =>
      ∃ p2, parseStep p = .Ret (p2, .Ok) ∧ Core.of p2 = s2 ∧ p2.buf = p.buf ∧
        p2.limits = p.limits ∧ p2.buffer_state = .Underfilled ∧ s2.cursor ≤ p.buf.upper
  | .Ret (s2, .Err e) =>
      ∃ p2, parseStep p = .Ret (p2, .Err e) ∧ Core.of p2 = s2 ∧ p2.buf = p.buf ∧
        p2.limits = p.limits ∧ p2.buffer_state = .Underfilled
  | .Ret (s2, .CleanEof) =>
      ∃ p2, parseStep p = .Ret (p2, .Eof) ∧ Core.of p2 = s2 ∧ p2.buf = p.buf ∧
        p2.limits = p.limits ∧ p2.buffer_state = .Underfilled

/-! ## Theorems -/

/-! ### Fuel monotonicity -/

theorem parseLoop_mono :
    ∀ F1 F2 p r, F1 ≤ F2 → parseLoop F1 p = some r → parseLoop F2 p = some r := by
  intro F1
  induction F1 with
  | zero => intro F2 p r _ h; simp [parseLoop] at h
  | succ n ih =>
    intro F2 p r hle h
    obtain ⟨m, rfl⟩ : ∃ m, F2 = m + 1 := ⟨F2 - 1, by omega⟩
    rw [parseLoop] at h ⊢
    cases hs : parseStep p with
    | Panic => rw [hs] at h; exact absurd h (by simp)
    | Ret r2 => rw [hs] at h; exact h
    | Cont p2 => rw [hs] at h; exact ih m p2 r (by omega) h

theorem coreRun_mono (lim : JournalExportLimits) (input : List Byte) (bound : Nat) :
    ∀ F1 F2 s r, F1 ≤ F2 → coreRun lim input bound F1 s = some r →
      coreRun lim input bound F2 s = some r := by
  intro F1
  induction F1 with
  | zero => intro F2 s r _ h; simp [coreRun] at h
  | succ n ih =>
    intro F2 s r hle h
    obtain ⟨m, rfl⟩ : ∃ m, F2 = m + 1 := ⟨F2 - 1, by omega⟩
    rw [coreRun] at h ⊢
    cases hs : coreStep lim input bound s with
    | Panic => rw [hs] at h; exact absurd h (by simp)
    | Ret r2 => rw [hs] at h; exact h
    | Cont s2 => rw [hs] at h; exact ih m s2 r (by omega) h

theorem parseNextLoop_mono (σ : Nat → Nat) :
    ∀ f1 f2 pf1 pf2 k st r, f1 ≤ f2 → pf1 ≤ pf2 →
      parseNextLoop σ pf1 f1 k st = some r → parseNextLoop σ pf2 f2 k st = some r := by
  intro f1
  induction f1 with
  | zero => intro f2 pf1 pf2 k st r _ _ h; simp [parseNextLoop] at h
  | succ n ih =>
    intro f2 pf1 pf2 k st r hf hpf h
    obtain ⟨m, rfl⟩ : ∃ m, f2 = m + 1 := ⟨f2 - 1, by omega⟩
    rw [parseNextLoop] at h ⊢
    cases hs : parseLoop pf1 st.parse_state with
    | none => rw [hs] at h; exact absurd h (by simp)
    | some pr =>
      rw [parseLoop_mono pf1 pf2 _ _ hpf hs]
      rw [hs] at h
      obtain ⟨p, res⟩ := pr
      cases res with
      | Ok => exact h
      | Err e => exact h
      | Eof => exact h
      | Underfilled =>
        simp only at h ⊢
        cases hw : (p.buf.writeFree
            (st.input.take (min (σ k) (min p.buf.freeLen st.input.length)))) with
        | none => rw [hw] at h; exact absurd h (by simp)
        | some b =>
          rw [hw] at h
          dsimp only at h ⊢
          cases he : b.extendB (min (σ k) (min p.buf.freeLen st.input.length)) with
          | none => rw [he] at h; exact absurd h (by simp)
          | some b2 =>
            rw [he] at h
            dsimp only at h ⊢
            exact ih m pf1 pf2 (k + 1) _ r (by omega) hpf h

theorem parse_next_mono (σ : Nat → Nat) (pf1 pf2 f1 f2 k : Nat)
    (st : JournalExportRead) (r) (hf : f1 ≤ f2) (hpf : pf1 ≤ pf2)
    (h : parse_next σ pf1 f1 k st = some r) : parse_next σ pf2 f2 k st = some r :=
  parseNextLoop_mono σ f1 f2 pf1 pf2 k _ r hf hpf h

theorem runAll_mono (σ : Nat → Nat) :
    ∀ f1 f2 pf1 pf2 df1 df2 k st r, f1 ≤ f2 → pf1 ≤ pf2 → df1 ≤ df2 →
      runAll σ pf1 df1 f1 k st = some r → runAll σ pf2 df2 f2 k st = some r := by
  intro f1
  induction f1 with
  | zero => intro f2 pf1 pf2 df1 df2 k st r _ _ _ h; simp [runAll] at h
  | succ n ih =>
    intro f2 pf1 pf2 df1 df2 k st r hf hpf hdf h
    obtain ⟨m, rfl⟩ : ∃ m, f2 = m + 1 := ⟨f2 - 1, by omega⟩
    rw [runAll] at h ⊢
    cases hs : parse_next σ pf1 df1 k st with
    | none => rw [hs] at h; exact absurd h (by simp)
    | some pr =>
      rw [parse_next_mono σ pf1 pf2 df1 df2 k st pr hdf hpf hs]
      rw [hs] at h
      obtain ⟨res, st2, k2⟩ := pr
      match res with
      | .ok (some _) =>
        simp only at h ⊢
        cases hr : runAll σ pf1 df1 n k2 st2 with
        | none => rw [hr] at h; exact absurd h (by simp)
        | some pr2 =>
          rw [hr] at h
          rw [ih m pf1 pf2 df1 df2 k2 st2 pr2 (by omega) hpf hdf hr]
          exact h
      | .ok none => exact h
      | .error e => exact h

theorem coreRunAll_mono (lim : JournalExportLimits) (input : List Byte) :
    ∀ f1 f2 pf1 pf2 s r, f1 ≤ f2 → pf1 ≤ pf2 →
      coreRunAll lim input pf1 f1 s = some r → coreRunAll lim input pf2 f2 s = some r := by
  intro f1
  induction f1 with
  | zero => intro f2 pf1 pf2 s r _ _ h; simp [coreRunAll] at h
  | succ n ih =>
    intro f2 pf1 pf2 s r hf hpf h
    obtain ⟨m, rfl⟩ : ∃ m, f2 = m + 1 := ⟨f2 - 1, by omega⟩
    rw [coreRunAll] at h ⊢
    cases hs : coreRun lim input input.length pf1 { s with offsets := [] } with
    | none => rw [hs] at h; exact absurd h (by simp)
    | some pr =>
      rw [coreRun_mono lim input input.length pf1 pf2 _ pr hpf hs]
      rw [hs] at h
      obtain ⟨s2, res⟩ := pr
      match res with
      | .Ok =>
        simp only at h ⊢
        cases hr : coreRunAll lim input pf1 n s2 with
        | none => rw [hr] at h; exact absurd h (by simp)
        | some pr2 =>
          rw [hr] at h
          rw [ih m pf1 pf2 s2 pr2 (by omega) hpf hr]
          exact h
      | .Err e => exact h
      | .Suspend => exact h
      | .CleanEof => exact h

/-! ### List and buffer helper lemmas -/

theorem get?_agree {l1 l2 : List Byte} {u i : Nat}
    (h : l1.take u = l2.take u) (hi : i < u) : l1.get? i = l2.get? i := by
  have h1 : (l1.take u).get? i = l1.get? i := List.get?_take hi
  have h2 : (l2.take u).get? i = l2.get? i := List.get?_take hi
  rw [← h1, ← h2, h]

theorem sliceL_agree {l1 l2 : List Byte} {u a b : Nat}
    (h : l1.take u = l2.take u) (hb : b ≤ u) :
    sliceL l1 a b = sliceL l2 a b := by
  unfold sliceL
  have e1 : (l1.drop a).take (b - a) = ((l1.take u).take b).drop a := by
    rw [List.take_take, min_eq_left hb, List.drop_take]
  have e2 : (l2.drop a).take (b - a) = ((l2.take u).take b).drop a := by
    rw [List.take_take, min_eq_left hb, List.drop_take]
  rw [e1, e2, h]

theorem sliceP_eq_sliceL (sb : ShiftBuffer) (a b : Nat) (h : sb.offset = 0) :
    sb.sliceP a b = sliceL sb.buf a b := by
  simp [ShiftBuffer.sliceP, sliceL, ShiftBuffer.relative_pos, h]

/-- Byte reads through the window agree with byte reads from the input. -/
theorem indexP_agree {input : List Byte} {p : JournalExportParser}
    (hw : WindowInv input p) {i : Nat} (hi : i < p.buf.upper) :
    p.buf.indexP i = input.get? i := by
  unfold ShiftBuffer.indexP
  rw [ShiftBuffer.relative_pos, hw.off0, Nat.sub_zero]
  exact get?_agree hw.agree hi

theorem indexP_isSome {input : List Byte} {p : JournalExportParser}
    (hw : WindowInv input p) {i : Nat} (hi : i < p.buf.upper) :
    ∃ c, p.buf.indexP i = some c ∧ input.get? i = some c := by
  have h := indexP_agree hw hi
  have hlen : i < input.length := lt_of_lt_of_le hi hw.upInput
  exact ⟨input.get ⟨i, hlen⟩, by rw [h, List.get?_eq_get hlen], List.get?_eq_get hlen⟩

/-- What `make_room` does under the parser-side invariant
(`offset = lower = 0`): it never shifts, it doubles exactly when the window
fills the store, it preserves the window and its contents, and it leaves
free space whenever the store is non-trivial. -/
theorem make_room_props (sb : ShiftBuffer) (hoff : sb.offset = 0)
    (hlow : sb.lower = 0) (hup : sb.upper ≤ sb.buf.length) :
    ∃ b2, sb.make_room = some b2 ∧ b2.offset = 0 ∧ b2.lower = 0 ∧
      b2.upper = sb.upper ∧ sb.buf.length ≤ b2.buf.length ∧
      b2.upper ≤ b2.buf.length ∧ b2.buf.take b2.upper = sb.buf.take sb.upper ∧
      (0 < sb.buf.length → sb.upper < b2.buf.length) := by
  unfold ShiftBuffer.make_room
  rw [ShiftBuffer.relative_pos, hoff, Nat.sub_zero]
  by_cases hfull : sb.upper = sb.buf.length
  · rw [if_pos hfull, if_pos (by rw [hlow])]
    refine ⟨_, rfl, rfl, hlow, rfl, ?_, ?_, ?_, ?_⟩
    · simp
    · simp; omega
    · exact List.take_append_of_le_length hup
    · intro hpos; simp; omega
  · rw [if_neg hfull]
    exact ⟨sb, rfl, hoff, hlow, rfl, le_refl _, hup, rfl, fun _ => lt_of_le_of_ne hup hfull⟩

/-- One step of the core machine at bound `buf.upper` is simulated by one
step of the real parser, provided the window invariant holds and the
parser is not at the window end in the `Filled` backpressure state. -/
theorem step_corr (input : List Byte) (p : JournalExportParser)
    (hw : WindowInv input p)
    (he : p.buffer_state = .Underfilled ∨ p.cursor < p.buf.upper) :
    CoreOutRel input p (coreStep p.limits input p.buf.upper (Core.of p)) := by
  by_cases hcu : p.cursor = p.buf.upper
  · have hcs : coreStep p.limits input p.buf.upper (Core.of p) = .Ret (Core.of p, .Suspend) := by
      simp [coreStep, Core.of, hcu]
    rw [hcs]
    have hbs : p.buffer_state = .Underfilled := by
      rcases he with h | h
      · exact h
      · omega
    obtain ⟨b2, hmk, _⟩ := make_room_props p.buf hw.off0 hw.low0 hw.upLen
    refine ⟨rfl, b2, hmk, ?_⟩
    unfold parseStep
    rw [if_pos hcu, if_neg (by simp [hbs]), hmk]
  · have hlt : p.cursor < p.buf.upper := lt_of_le_of_ne hw.curUp hcu
    obtain ⟨c, hpc, hic⟩ := indexP_isSome hw hlt
    cases hps : p.parse_state with
    | EntryStart =>
      by_cases hb : (isAlphaB c || c == 95) = true
      · simp only [coreStep, Core.of, hic, hps, hb, hcu, if_false, ite_false, ite_true, if_true, Bool.false_eq_true]
        refine ⟨{ p with
            buffer_state := .Underfilled,
            entry_start := p.cursor,
            field_start := p.cursor,
            cursor := p.cursor + 1,
            parse_state := .Fieldname }, ?_, rfl, rfl, rfl, rfl,
          by show p.cursor + 1 ≤ p.buf.upper; omega⟩
        simp only [parseStep, hpc, hps, hb, hcu, if_false, ite_false, ite_true, if_true, Bool.false_eq_true]
      · simp only [coreStep, Core.of, hic, hps, hb, hcu, if_false, ite_false, ite_true, if_true, Bool.false_eq_true]
        refine ⟨{ p with
            buffer_state := .Underfilled,
            parse_state := .Eof }, ?_, rfl, rfl, rfl, rfl⟩
        simp only [parseStep, JournalExportParser.eof_and_return, hpc, hps, hb, hcu,
          if_false, ite_false, ite_true, if_true, Bool.false_eq_true]
    | FieldStart =>
      by_cases hn : (c == NL) = true
      · by_cases hemp : p.field_offsets.isEmpty = true
        · simp only [coreStep, Core.of, hic, hps, hn, hemp, hcu, if_false, ite_false,
            ite_true, if_true, Bool.false_eq_true]
          refine ⟨{ p with
              buffer_state := .Underfilled,
              parse_state := .Eof }, ?_, rfl, rfl, rfl, rfl⟩
          simp only [parseStep, JournalExportParser.eof_and_return, hpc, hps, hn, hemp,
            hcu, if_false, ite_false, ite_true, if_true, Bool.false_eq_true]
        · simp only [coreStep, Core.of, hic, hps, hn, hemp, hcu, if_false, ite_false,
            ite_true, if_true, Bool.false_eq_true]
          refine ⟨{ p with
              buffer_state := .Underfilled,
              cursor := p.cursor + 1,
              parse_state := .EntryStart }, ?_, rfl, rfl, rfl, rfl,
            by show p.cursor + 1 ≤ p.buf.upper; omega⟩
          simp only [parseStep, hpc, hps, hn, hemp, hcu, if_false, ite_false, ite_true,
            if_true, Bool.false_eq_true]
      · by_cases hb : (isAlnumB c || c == 95) = true
        · simp only [coreStep, Core.of, hic, hps, hn, hb, hcu, if_false, ite_false,
            ite_true, if_true, Bool.false_eq_true]
          refine ⟨{ p with
              buffer_state := .Underfilled,
              field_start := p.cursor,
              cursor := p.cursor + 1,
              parse_state := .Fieldname }, ?_, rfl, rfl, rfl, rfl,
            by show p.cursor + 1 ≤ p.buf.upper; omega⟩
          simp only [parseStep, hpc, hps, hn, hb, hcu, if_false, ite_false, ite_true,
            if_true, Bool.false_eq_true]
        · simp only [coreStep, Core.of, hic, hps, hn, hb, hcu, if_false, ite_false,
            ite_true, if_true, Bool.false_eq_true]
          refine ⟨{ p with
              buffer_state := .Underfilled,
              parse_state := .Eof }, ?_, rfl, rfl, rfl, rfl⟩
          simp only [parseStep, JournalExportParser.eof_and_return, hpc, hps, hn, hb,
            hcu, if_false, ite_false, ite_true, if_true, Bool.false_eq_true]
    | Fieldname =>
      by_cases hname : p.cursor - p.field_start > p.limits.max_field_name_len
      · simp only [coreStep, Core.of, hic, hps, hname, hcu, if_false, ite_false,
          ite_true, if_true, Bool.false_eq_true]
        refine ⟨{ p with
            buffer_state := .Underfilled,
            namelen := p.cursor - p.field_start,
            parse_state := .Eof }, ?_, rfl, rfl, rfl, rfl⟩
        simp only [parseStep, JournalExportParser.eof_and_return, hpc, hps, hname, hcu,
          if_false, ite_false, ite_true, if_true, Bool.false_eq_true]
      · by_cases hb : (isAlnumB c || c == 95) = true
        · simp only [coreStep, Core.of, hic, hps, hname, hb, hcu, if_false, ite_false,
            ite_true, if_true, Bool.false_eq_true]
          refine ⟨{ p with
              buffer_state := .Underfilled,
              namelen := p.cursor - p.field_start,
              cursor := p.cursor + 1,
              parse_state := .Fieldname }, ?_, rfl, rfl, rfl, rfl,
            by show p.cursor + 1 ≤ p.buf.upper; omega⟩
          simp only [parseStep, hpc, hps, hname, hb, hcu, if_false, ite_false, ite_true,
            if_true, Bool.false_eq_true]
        · by_cases heq : (c == 61) = true
          · simp only [coreStep, Core.of, hic, hps, hname, hb, heq, hcu, if_false,
              ite_false, ite_true, if_true, Bool.false_eq_true]
            refine ⟨{ p with
                buffer_state := .Underfilled,
                namelen := p.cursor - p.field_start,
                cursor := p.cursor + 1,
                parse_state := .StringField }, ?_, rfl, rfl, rfl, rfl,
              by show p.cursor + 1 ≤ p.buf.upper; omega⟩
            simp only [parseStep, hpc, hps, hname, hb, heq, hcu, if_false, ite_false,
              ite_true, if_true, Bool.false_eq_true]
          · by_cases hn : (c == NL) = true
            · simp only [coreStep, Core.of, hic, hps, hname, hb, heq, hn, hcu, if_false,
                ite_false, ite_true, if_true, Bool.false_eq_true]
              refine ⟨{ p with
                  buffer_state := .Underfilled,
                  namelen := p.cursor - p.field_start,
                  cursor := p.cursor + 1,
                  parse_state := .BinaryValueLen }, ?_, rfl, rfl, rfl, rfl,
                by show p.cursor + 1 ≤ p.buf.upper; omega⟩
              simp only [parseStep, hpc, hps, hname, hb, heq, hn, hcu, if_false,
                ite_false, ite_true, if_true, Bool.false_eq_true]
            · simp only [coreStep, Core.of, hic, hps, hname, hb, heq, hn, hcu, if_false,
                ite_false, ite_true, if_true, Bool.false_eq_true]
              refine ⟨{ p with
                  buffer_state := .Underfilled,
                  namelen := p.cursor - p.field_start,
                  cursor := p.cursor + 1 - 1,
                  parse_state := .Eof }, ?_, rfl, rfl, rfl, rfl⟩
              simp only [parseStep, JournalExportParser.eof_and_return, hpc, hps, hname,
                hb, heq, hn, hcu, if_false, ite_false, ite_true, if_true, Bool.false_eq_true]
    | BinaryValueLen =>
      by_cases hstay : (decide (min p.buf.upper (p.field_start + p.namelen + 9) <
          p.field_start + p.namelen + 9) ||
          min p.buf.upper (p.field_start + p.namelen + 9) == p.buf.upper) = true
      · simp only [coreStep, Core.of, hic, hps, hstay, hcu, if_false, ite_false,
          ite_true, if_true, Bool.false_eq_true]
        refine ⟨{ p with
            buffer_state := .Underfilled,
            cursor := min p.buf.upper (p.field_start + p.namelen + 9),
            parse_state := .BinaryValueLen }, ?_, rfl, rfl, rfl, rfl,
          by show min p.buf.upper (p.field_start + p.namelen + 9) ≤ p.buf.upper; omega⟩
        simp only [parseStep, hpc, hps, hstay, hcu, if_false, ite_false, ite_true,
          if_true, Bool.false_eq_true]
      · have hl : p.field_start + p.namelen + 9 ≤ p.buf.upper := by
          simp only [Bool.or_eq_true, decide_eq_true_eq, beq_iff_eq, not_or] at hstay
          omega
        have hnorm : p.field_start + p.namelen + 9 - 8 = p.field_start + p.namelen + 1 := by
          omega
        have hsl : p.buf.sliceP (p.field_start + p.namelen + 1)
            (p.field_start + p.namelen + 9) =
            sliceL input (p.field_start + p.namelen + 1)
              (p.field_start + p.namelen + 9) := by
          rw [sliceP_eq_sliceL _ _ _ hw.off0]
          exact sliceL_agree hw.agree hl
        by_cases hlen8 : (sliceL input (p.field_start + p.namelen + 1)
            (p.field_start + p.namelen + 9)).length = 8
        · by_cases hbig : leDecode (sliceL input (p.field_start + p.namelen + 1)
              (p.field_start + p.namelen + 9)) > p.limits.max_field_value_size
          · simp only [coreStep, Core.of, hic, hps, hstay, hnorm, hsl, hlen8, hbig, hcu,
              if_false, ite_false, ite_true, if_true, Bool.false_eq_true]
            refine ⟨{ p with
                buffer_state := .Underfilled,
                cursor := min p.buf.upper (p.field_start + p.namelen + 9),
                remaining := leDecode (sliceL input
                  (p.field_start + p.namelen + 1) (p.field_start + p.namelen + 9)),
                parse_state := .Eof }, ?_, rfl, rfl, rfl, rfl⟩
            simp only [parseStep, JournalExportParser.eof_and_return, hpc, hps, hstay,
              hnorm, hsl, hlen8, hbig, hcu, if_false, ite_false, ite_true, if_true,
              Bool.false_eq_true]
          · simp only [coreStep, Core.of, hic, hps, hstay, hnorm, hsl, hlen8, hbig, hcu,
              if_false, ite_false, ite_true, if_true, Bool.false_eq_true]
            refine ⟨{ p with
                buffer_state := .Underfilled,
                cursor := min p.buf.upper (p.field_start + p.namelen + 9),
                remaining := leDecode (sliceL input
                  (p.field_start + p.namelen + 1) (p.field_start + p.namelen + 9)),
                parse_state := .BinaryValue }, ?_, rfl, rfl, rfl, rfl,
              by show min p.buf.upper (p.field_start + p.namelen + 9) ≤ p.buf.upper
                 omega⟩
            simp only [parseStep, hpc, hps, hstay, hnorm, hsl, hlen8, hbig, hcu, if_false,
              ite_false, ite_true, if_true, Bool.false_eq_true]
        · simp only [coreStep, Core.of, hic, hps, hstay, hnorm, hsl, hlen8, hcu, if_false,
            ite_false, ite_true, if_true, Bool.false_eq_true]
          trivial
    | BinaryValue =>
      by_cases hlt2 : p.cursor < p.field_start + p.namelen + 9 + p.remaining
      · simp only [coreStep, Core.of, hic, hps, hlt2, hcu, if_false, ite_false,
          ite_true, if_true, Bool.false_eq_true]
        refine ⟨{ p with
            buffer_state := .Underfilled,
            cursor := min p.buf.upper (p.field_start + p.namelen + 9 + p.remaining),
            parse_state := .BinaryValue }, ?_, rfl, rfl, rfl, rfl,
          by show min p.buf.upper (p.field_start + p.namelen + 9 + p.remaining) ≤
               p.buf.upper
             omega⟩
        simp only [parseStep, hpc, hps, hlt2, hcu, if_false, ite_false, ite_true,
          if_true, Bool.false_eq_true]
      · by_cases hnl : c = NL
        · simp only [coreStep, Core.of, hic, hps, hlt2, hnl, hcu, ne_eq, not_true_eq_false,
            if_false, ite_false, ite_true, if_true, Bool.false_eq_true]
          refine ⟨{ p with
              buffer_state := .Underfilled,
              cursor := p.cursor + 1,
              field_offsets := p.field_offsets ++ [⟨p.field_start, p.namelen, .Binary⟩],
              parse_state := .FieldStart }, ?_, rfl, rfl, rfl, rfl,
            by show p.cursor + 1 ≤ p.buf.upper; omega⟩
          simp only [parseStep, hpc, hps, hlt2, hnl, hcu, ne_eq, not_true_eq_false,
            if_false, ite_false, ite_true, if_true, Bool.false_eq_true]
        · simp only [coreStep, Core.of, hic, hps, hlt2, hnl, hcu, ne_eq,
            not_false_eq_true, if_false, ite_false, ite_true, if_true, Bool.false_eq_true]
          refine ⟨{ p with
              buffer_state := .Underfilled,
              parse_state := .Eof }, ?_, rfl, rfl, rfl, rfl⟩
          simp only [parseStep, JournalExportParser.eof_and_return, hpc, hps, hlt2, hnl,
            hcu, ne_eq, not_false_eq_true, if_false, ite_false, ite_true, if_true,
            Bool.false_eq_true]
    | StringField =>
      by_cases hn : (c == NL) = true
      · simp only [coreStep, Core.of, hic, hps, hn, hcu, if_false, ite_false, ite_true,
          if_true, Bool.false_eq_true]
        refine ⟨{ p with
            buffer_state := .Underfilled,
            cursor := p.cursor + 1,
            field_offsets := p.field_offsets ++ [⟨p.field_start, p.namelen, .String⟩],
            parse_state := .FieldStart }, ?_, rfl, rfl, rfl, rfl,
          by show p.cursor + 1 ≤ p.buf.upper; omega⟩
        simp only [parseStep, hpc, hps, hn, hcu, if_false, ite_false, ite_true, if_true, Bool.false_eq_true]
      · by_cases hlim : p.cursor + 1 - p.field_start - p.namelen - 1 >
            p.limits.max_field_value_size
        · simp only [coreStep, Core.of, hic, hps, hn, hlim, hcu, if_false, ite_false,
            ite_true, if_true, Bool.false_eq_true]
          refine ⟨{ p with
              buffer_state := .Underfilled,
              cursor := p.cursor + 1 - 1,
              parse_state := .Eof }, ?_, rfl, rfl, rfl, rfl⟩
          simp only [parseStep, JournalExportParser.eof_and_return, hpc, hps, hn, hlim,
            hcu, if_false, ite_false, ite_true, if_true, Bool.false_eq_true]
        · simp only [coreStep, Core.of, hic, hps, hn, hlim, hcu, if_false, ite_false,
            ite_true, if_true, Bool.false_eq_true]
          refine ⟨{ p with
              buffer_state := .Underfilled,
              cursor := p.cursor + 1,
              parse_state := .StringField }, ?_, rfl, rfl, rfl, rfl,
            by show p.cursor + 1 ≤ p.buf.upper; omega⟩
          simp only [parseStep, hpc, hps, hn, hlim, hcu, if_false, ite_false, ite_true,
            if_true, Bool.false_eq_true]
    | Eof =>
      simp only [coreStep, Core.of, hic, hps, hcu, if_false, ite_false, ite_true,
        if_true, Bool.false_eq_true]
      refine ⟨{ p with
          buffer_state := .Underfilled,
          parse_state := .Eof }, ?_, rfl, rfl, rfl, rfl⟩
      simp only [parseStep, hpc, hps, hcu, if_false, ite_false, ite_true, if_true,
        Bool.false_eq_true]

/-- A core run at bound `buf.upper` is simulated by `parseLoop` with the
same fuel: same result, same core state; on suspension the buffer has gone
through `make_room` (capacity never shrinks, free space appears), otherwise
the buffer is untouched. -/
theorem run_corr (input : List Byte) :
    ∀ F (p : JournalExportParser) (s2 : Core) (res : CoreRes),
      WindowInv input p →
      (p.buffer_state = .Underfilled ∨ p.cursor < p.buf.upper) →
      coreRun p.limits input p.buf.upper F (Core.of p) = some (s2, res) →
      ∃ p2, parseLoop F p = some (p2, mapCoreRes res) ∧ Core.of p2 = s2 ∧
        p2.limits = p.limits ∧
        (res = .Suspend → p2.buffer_state = .Filled ∧ WindowInv input p2 ∧
          p.buf.buf.length ≤ p2.buf.buf.length ∧
          (0 < p.buf.buf.length → p2.buf.upper < p2.buf.buf.length) ∧
          p2.buf.upper = p.buf.upper) ∧
        (res ≠ .Suspend → p2.buf = p.buf ∧ p2.buffer_state = .Underfilled) ∧
        (res = .Ok → WindowInv input p2) := by
  intro F
  induction F with
  | zero => intro p s2 res _ _ h; simp [coreRun] at h
  | succ n ih =>
    intro p s2 res hw he h
    have hrel := step_corr input p hw he
    rw [coreRun] at h
    cases hcs : coreStep p.limits input p.buf.upper (Core.of p) with
    | Panic => rw [hcs] at h; exact absurd h (by simp)
    | Ret r2 =>
      rw [hcs] at h hrel
      obtain ⟨s2x, resx⟩ := r2
      obtain ⟨hA, hB⟩ : s2x = s2 ∧ resx = res := by
        simpa [Prod.ext_iff] using h
      rw [← hA, ← hB]
      unfold CoreOutRel at hrel
      cases resx with
      | Suspend =>
        obtain ⟨hsc, b2, hmk, hstep⟩ := hrel
        obtain ⟨b2x, hmkx, hoff, hlow, hupx, hcaple, huplen, htake, hfree⟩ :=
          make_room_props p.buf hw.off0 hw.low0 hw.upLen
        rw [hmk] at hmkx
        obtain rfl : b2 = b2x := by simpa using hmkx
        rw [hupx] at htake
        refine ⟨{ p with buf := b2, buffer_state := .Filled }, ?_, ?_, rfl, ?_, ?_, ?_⟩
        · rw [parseLoop, hstep]; rfl
        · rw [hsc]; rfl
        · intro _
          refine ⟨rfl, ⟨hoff, hlow, huplen, ?_, ?_, ?_⟩, hcaple, ?_, hupx⟩
          · show b2.upper ≤ input.length
            rw [hupx]; exact hw.upInput
          · show b2.buf.take b2.upper = input.take b2.upper
            rw [hupx, htake]; exact hw.agree
          · show p.cursor ≤ b2.upper
            rw [hupx]; exact hw.curUp
          · intro hpos
            show b2.upper < b2.buf.length
            rw [hupx]; exact hfree hpos
        · intro hne; exact absurd rfl hne
        · intro hok; exact absurd hok (by simp)
      | Ok =>
        obtain ⟨p2, hstep, hcore, hbuf, hlim, hbs, hcur⟩ := hrel
        refine ⟨p2, ?_, hcore, hlim, ?_, fun _ => ⟨hbuf, hbs⟩, ?_⟩
        · rw [parseLoop, hstep]; rfl
        · intro hs; exact absurd hs (by simp)
        · intro _
          rw [← hcore] at hcur
          exact ⟨by rw [hbuf]; exact hw.off0, by rw [hbuf]; exact hw.low0,
            by rw [hbuf]; exact hw.upLen, by rw [hbuf]; exact hw.upInput,
            by rw [hbuf]; exact hw.agree, by rw [hbuf]; exact hcur⟩
      | Err e =>
        obtain ⟨p2, hstep, hcore, hbuf, hlim, hbs⟩ := hrel
        refine ⟨p2, ?_, hcore, hlim, ?_, fun _ => ⟨hbuf, hbs⟩, ?_⟩
        · rw [parseLoop, hstep]; rfl
        · intro hs; exact absurd hs (by simp)
        · intro hok; exact absurd hok (by simp)
      | CleanEof =>
        obtain ⟨p2, hstep, hcore, hbuf, hlim, hbs⟩ := hrel
        refine ⟨p2, ?_, hcore, hlim, ?_, fun _ => ⟨hbuf, hbs⟩, ?_⟩
        · rw [parseLoop, hstep]; rfl
        · intro hs; exact absurd hs (by simp)
        · intro hok; exact absurd hok (by simp)
    | Cont s1 =>
      rw [hcs] at h hrel
      unfold CoreOutRel at hrel
      obtain ⟨p2, hstep, hcore, hbuf, hlim, hbs, hcur⟩ := hrel
      rw [← hcore] at hcur
      have hw2 : WindowInv input p2 :=
        ⟨by rw [hbuf]; exact hw.off0, by rw [hbuf]; exact hw.low0,
         by rw [hbuf]; exact hw.upLen, by rw [hbuf]; exact hw.upInput,
         by rw [hbuf]; exact hw.agree, by rw [hbuf]; exact hcur⟩
      have h2 : coreRun p2.limits input p2.buf.upper n (Core.of p2) = some (s2, res) := by
        rw [hlim, hbuf, hcore]; exact h
      obtain ⟨p3, hrun, hc3, hl3, hsusp, hnosusp, hok⟩ :=
        ih p2 s2 res hw2 (Or.inl hbs) h2
      refine ⟨p3, ?_, hc3, by rw [hl3, hlim], ?_, ?_, hok⟩
      · rw [parseLoop, hstep]; exact hrun
      · intro hr
        obtain ⟨ha, hb, hc, hd, hee⟩ := hsusp hr
        refine ⟨ha, hb, ?_, ?_, ?_⟩
        · rw [hbuf] at hc; exact hc
        · intro hpos; rw [hbuf] at hd; exact hd hpos
        · rw [hee, hbuf]
      · intro hr
        obtain ⟨ha, hb⟩ := hnosusp hr
        exact ⟨by rw [ha, hbuf], hb⟩

/-- In state `BinaryValueLen` the step does not depend on the incoming
cursor (it is overwritten by the clamp), provided both byte reads succeed
and neither cursor sits at the bound. -/
theorem coreStep_cursor_indep_bvl (lim : JournalExportLimits) (input : List Byte)
    (bound : Nat) (s : Core) (x : Nat) (hs : s.state = .BinaryValueLen)
    (h1 : s.cursor ≠ bound) (h2 : x ≠ bound)
    (c1 : Byte) (hr1 : input.get? s.cursor = some c1)
    (c2 : Byte) (hr2 : input.get? x = some c2) :
    coreStep lim input bound { s with cursor := x } = coreStep lim input bound s := by
  simp only [coreStep, hs, h1, h2, hr1, hr2, if_false, ite_false, ite_true, if_true,
    Bool.false_eq_true]

/-- In state `BinaryValue` below the payload end the step does not depend
on the incoming cursor. -/
theorem coreStep_cursor_indep_bv (lim : JournalExportLimits) (input : List Byte)
    (bound : Nat) (s : Core) (x : Nat) (hs : s.state = .BinaryValue)
    (h1 : s.cursor ≠ bound) (h2 : x ≠ bound)
    (hlt1 : s.cursor < s.field_start + s.namelen + 9 + s.remaining)
    (hlt2 : x < s.field_start + s.namelen + 9 + s.remaining)
    (c1 : Byte) (hr1 : input.get? s.cursor = some c1)
    (c2 : Byte) (hr2 : input.get? x = some c2) :
    coreStep lim input bound { s with cursor := x } = coreStep lim input bound s := by
  simp only [coreStep, hs, h1, h2, hr1, hr2, hlt1, hlt2, if_false, ite_false, ite_true,
    if_true, Bool.false_eq_true]

/-- A continuing core step never moves the cursor beyond the bound. -/
theorem coreStep_cont_cursor_le (lim : JournalExportLimits) (input : List Byte)
    (bound : Nat) : ∀ s s2, s.cursor ≤ bound →
    coreStep lim input bound s = .Cont s2 → s2.cursor ≤ bound := by
  intro s s2 hc h
  unfold coreStep at h
  by_cases hcb : s.cursor = bound
  · rw [if_pos hcb] at h; exact absurd h (by simp)
  · rw [if_neg hcb] at h
    have hlt : s.cursor < bound := lt_of_le_of_ne hc hcb
    cases hread : input.get? s.cursor with
    | none => rw [hread] at h; exact absurd h (by simp)
    | some c =>
      rw [hread] at h
      cases hst : s.state <;> rw [hst] at h <;> simp only at h <;>
        (try split_ifs at h) <;>
        first
        | (injection h with h2; rw [← h2]; simp; try omega)
        | exact absurd h (by simp)

/-- Splitting a core run at a smaller bound: a run that succeeds at bound
`bp` either already succeeds identically at bound `b`, or the bound-`b` run
suspends at cursor `b` and resuming the suspended state at bound `bp`
reproduces the original result.  This is the heart of chunking
independence: delivering the input up to `b` first and the rest later does
not change the outcome. -/
theorem coreRun_split (lim : JournalExportLimits) (input : List Byte) (b bp : Nat)
    (hbb : b ≤ bp) (hbi : bp ≤ input.length) :
    ∀ F s r, s.cursor ≤ b → coreRun lim input bp F s = some r →
      (∃ F2, coreRun lim input b F2 s = some r) ∨
      (∃ F2 s1, coreRun lim input b F2 s = some (s1, .Suspend) ∧ s1.cursor = b ∧
        ∃ F3, coreRun lim input bp F3 s1 = some r) := by
  by_cases hbbp : b = bp
  · subst hbbp
    intro F s r _ h
    exact Or.inl ⟨F, h⟩
  have hblt : b < bp := lt_of_le_of_ne hbb hbbp
  intro F
  induction F with
  | zero => intro s r _ h; simp [coreRun] at h
  | succ n ih =>
    intro s r hcb h
    by_cases hcb2 : s.cursor = b
    · refine Or.inr ⟨1, s, ?_, hcb2, n + 1, h⟩
      rw [coreRun, coreStep, if_pos hcb2]
    · have hclt : s.cursor < b := lt_of_le_of_ne hcb hcb2
      have hcbp : s.cursor ≠ bp := by omega
      rw [coreRun] at h
      cases hread : input.get? s.cursor with
      | none =>
        rw [show coreStep lim input bp s = .Panic by
          rw [coreStep, if_neg hcbp, hread]] at h
        exact absurd h (by simp)
      | some c =>
        -- the byte at position b exists as well (needed to resume)
        have hblen : b < input.length := by omega
        obtain ⟨cb, hreadb⟩ : ∃ cb, input.get? b = some cb :=
          ⟨input.get ⟨b, hblen⟩, List.get?_eq_get hblen⟩
        -- a uniform way to finish once the step is bound-independent
        have lockstep : coreStep lim input b s = coreStep lim input bp s →
            (∃ F2, coreRun lim input b F2 s = some r) ∨
            (∃ F2 s1, coreRun lim input b F2 s = some (s1, .Suspend) ∧ s1.cursor = b ∧
              ∃ F3, coreRun lim input bp F3 s1 = some r) := by
          intro hstep_eq
          cases hcs : coreStep lim input bp s with
          | Panic => rw [hcs] at h; exact absurd h (by simp)
          | Ret r2 =>
            rw [hcs] at h
            refine Or.inl ⟨1, ?_⟩
            rw [coreRun, hstep_eq, hcs]
            exact h
          | Cont s2 =>
            rw [hcs] at h
            have hs2 : s2.cursor ≤ b :=
              coreStep_cont_cursor_le lim input b s s2 hcb (by rw [hstep_eq, hcs])
            rcases ih s2 r hs2 h with ⟨F2, hF2⟩ | ⟨F2, s1, hF2, hc1, F3, hF3⟩
            · refine Or.inl ⟨F2 + 1, ?_⟩
              rw [coreRun, hstep_eq, hcs]
              exact hF2
            · refine Or.inr ⟨F2 + 1, s1, ?_, hc1, F3, hF3⟩
              rw [coreRun, hstep_eq, hcs]
              exact hF2
        cases hst : s.state with
        | EntryStart =>
          exact lockstep (by
            simp only [coreStep, hst, hcb2, hcbp, hread, if_false, ite_false, ite_true,
              if_true, Bool.false_eq_true])
        | FieldStart =>
          exact lockstep (by
            simp only [coreStep, hst, hcb2, hcbp, hread, if_false, ite_false, ite_true,
              if_true, Bool.false_eq_true])
        | Fieldname =>
          exact lockstep (by
            simp only [coreStep, hst, hcb2, hcbp, hread, if_false, ite_false, ite_true,
              if_true, Bool.false_eq_true])
        | StringField =>
          exact lockstep (by
            simp only [coreStep, hst, hcb2, hcbp, hread, if_false, ite_false, ite_true,
              if_true, Bool.false_eq_true])
        | Eof =>
          exact lockstep (by
            simp only [coreStep, hst, hcb2, hcbp, hread, if_false, ite_false, ite_true,
              if_true, Bool.false_eq_true])
        | BinaryValueLen =>
          by_cases hstayb : (decide (min b (s.field_start + s.namelen + 9) <
              s.field_start + s.namelen + 9) ||
              (min b (s.field_start + s.namelen + 9) == b)) = true
          · -- the bound-b run parks the cursor at b and suspends
            have hmb : min b (s.field_start + s.namelen + 9) = b := by
              simp only [Bool.or_eq_true, decide_eq_true_eq, beq_iff_eq] at hstayb
              omega
            have hpark : coreStep lim input b s =
                .Cont { s with cursor := b, state := .BinaryValueLen } := by
              simp only [coreStep, hst, hcb2, hread, if_false, ite_false, ite_true,
                if_true, Bool.false_eq_true, hstayb, hmb, beq_self_eq_true,
                Bool.or_true]
            have hsusp : coreStep lim input b
                ({ s with cursor := b, state := .BinaryValueLen } : Core) =
                .Ret ({ s with cursor := b, state := .BinaryValueLen }, .Suspend) := by
              rw [coreStep, if_pos rfl]
            have hrun2 : coreRun lim input b 2 s =
                some ({ s with cursor := b, state := .BinaryValueLen }, .Suspend) := by
              rw [show (2 : Nat) = 1 + 1 from rfl]
              simp only [coreRun, hpark, hsusp]
            refine Or.inr ⟨2, _, hrun2, rfl, n + 1, ?_⟩
            have hind : coreStep lim input bp
                { s with cursor := b, state := .BinaryValueLen } =
                coreStep lim input bp s := by
              have h1 : ({ s with cursor := b, state := .BinaryValueLen } : Core) =
                  { s with cursor := b } := by rw [← hst]
              rw [h1]
              exact coreStep_cursor_indep_bvl lim input bp s b hst hcbp
                (by omega) c hread cb hreadb
            rw [coreRun, hind]
            exact h
          · -- both runs decode in lockstep
            have hlb : s.field_start + s.namelen + 9 < b := by
              simp only [Bool.or_eq_true, decide_eq_true_eq, beq_iff_eq, not_or] at hstayb
              omega
            have hmb : min b (s.field_start + s.namelen + 9) =
                s.field_start + s.namelen + 9 := by omega
            have hmbp : min bp (s.field_start + s.namelen + 9) =
                s.field_start + s.namelen + 9 := by omega
            have hsb : (decide (s.field_start + s.namelen + 9 <
                s.field_start + s.namelen + 9) ||
                ((s.field_start + s.namelen + 9) == b)) = false := by
              simp only [Bool.or_eq_false_iff, decide_eq_false_iff_not, beq_eq_false_iff_ne,
                ne_eq]
              omega
            have hsbp : (decide (s.field_start + s.namelen + 9 <
                s.field_start + s.namelen + 9) ||
                ((s.field_start + s.namelen + 9) == bp)) = false := by
              simp only [Bool.or_eq_false_iff, decide_eq_false_iff_not, beq_eq_false_iff_ne,
                ne_eq]
              omega
            exact lockstep (by
              simp only [coreStep, hst, hcb2, hcbp, hread, hmb, hmbp, hsb, hsbp,
                if_false, ite_false, ite_true, if_true, Bool.false_eq_true])
        | BinaryValue =>
          by_cases hlt2 : s.cursor < s.field_start + s.namelen + 9 + s.remaining
          · by_cases hstopb : s.field_start + s.namelen + 9 + s.remaining ≤ b
            · have hmb : min b (s.field_start + s.namelen + 9 + s.remaining) =
                  s.field_start + s.namelen + 9 + s.remaining := by omega
              have hmbp : min bp (s.field_start + s.namelen + 9 + s.remaining) =
                  s.field_start + s.namelen + 9 + s.remaining := by omega
              exact lockstep (by
                simp only [coreStep, hst, hcb2, hcbp, hread, hlt2, hmb, hmbp, if_false,
                  ite_false, ite_true, if_true, Bool.false_eq_true])
            · have hmb : min b (s.field_start + s.namelen + 9 + s.remaining) = b := by
                omega
              have hpark : coreStep lim input b s =
                  .Cont { s with cursor := b, state := .BinaryValue } := by
                simp only [coreStep, hst, hcb2, hread, if_false, ite_false, ite_true,
                  if_true, Bool.false_eq_true, hlt2, hmb]
              have hsusp : coreStep lim input b
                  ({ s with cursor := b, state := .BinaryValue } : Core) =
                  .Ret ({ s with cursor := b, state := .BinaryValue }, .Suspend) := by
                rw [coreStep, if_pos rfl]
              have hrun2 : coreRun lim input b 2 s =
                  some ({ s with cursor := b, state := .BinaryValue }, .Suspend) := by
                rw [show (2 : Nat) = 1 + 1 from rfl]
                simp only [coreRun, hpark, hsusp]
              refine Or.inr ⟨2, _, hrun2, rfl, n + 1, ?_⟩
              have hind : coreStep lim input bp
                  { s with cursor := b, state := .BinaryValue } =
                  coreStep lim input bp s := by
                have h1 : ({ s with cursor := b, state := .BinaryValue } : Core) =
                    { s with cursor := b } := by rw [← hst]
                rw [h1]
                exact coreStep_cursor_indep_bv lim input bp s b hst hcbp (by omega)
                  hlt2 (by omega) c hread cb hreadb
              rw [coreRun, hind]
              exact h
          · exact lockstep (by
              simp only [coreStep, hst, hcb2, hcbp, hread, hlt2, if_false, ite_false,
                ite_true, if_true, Bool.false_eq_true])

/-- `parseLoop` with positive fuel returns immediately when the step
returns. -/
theorem parseLoop_ret {p : JournalExportParser} {r : JournalExportParser × ParseResult}
    (h : parseStep p = .Ret r) : ∀ F, parseLoop (F + 1) p = some r := by
  intro F; rw [parseLoop, h]

/-- A core step can only suspend at the bound, leaving the state
untouched. -/
theorem coreStep_suspend (lim : JournalExportLimits) (input : List Byte)
    (bound : Nat) (s s2 : Core)
    (h : coreStep lim input bound s = .Ret (s2, .Suspend)) :
    s2 = s ∧ s.cursor = bound := by
  unfold coreStep at h
  by_cases hcb : s.cursor = bound
  · rw [if_pos hcb] at h
    injection h with h2
    injection h2 with ha hb
    exact ⟨ha.symm, hcb⟩
  · rw [if_neg hcb] at h
    cases hread : input.get? s.cursor with
    | none => rw [hread] at h; exact absurd h (by simp)
    | some c =>
      rw [hread] at h
      cases hst : s.state <;> rw [hst] at h <;> simp only at h <;>
        (try split_ifs at h) <;> simp at h

/-- A suspended core run stopped exactly at the bound. -/
theorem coreRun_suspend_cursor (lim : JournalExportLimits) (input : List Byte)
    (bound : Nat) : ∀ F s s2,
    coreRun lim input bound F s = some (s2, .Suspend) → s2.cursor = bound := by
  intro F
  induction F with
  | zero => intro s s2 h; simp [coreRun] at h
  | succ n ih =>
    intro s s2 h
    rw [coreRun] at h
    cases hcs : coreStep lim input bound s with
    | Panic => rw [hcs] at h; exact absurd h (by simp)
    | Ret r =>
      rw [hcs] at h
      obtain ⟨sx, resx⟩ := r
      obtain ⟨hA, hB⟩ : sx = s2 ∧ resx = .Suspend := by simpa [Prod.ext_iff] using h
      subst hA; subst hB
      obtain ⟨heq, hcb⟩ := coreStep_suspend lim input bound s _ hcs
      rw [heq]; exact hcb
    | Cont sc =>
      rw [hcs] at h
      exact ih sc s2 h

/-- A continuing core step preserves structural well-formedness. -/
theorem coreStep_wf_cont (lim : JournalExportLimits) (input : List Byte)
    (bound : Nat) (s s2 : Core) (hc : s.cursor ≤ bound) (hw : CoreWF s)
    (h : coreStep lim input bound s = .Cont s2) : CoreWF s2 := by
  obtain ⟨hw1, hw2, hw3, hw4⟩ := hw
  unfold coreStep at h
  by_cases hcb : s.cursor = bound
  · rw [if_pos hcb] at h; exact absurd h (by simp)
  · rw [if_neg hcb] at h
    have hlt : s.cursor < bound := lt_of_le_of_ne hc hcb
    cases hread : input.get? s.cursor with
    | none => rw [hread] at h; exact absurd h (by simp)
    | some c =>
      rw [hread] at h
      cases hst : s.state <;> rw [hst] at h <;> simp only at h
      ·
        split_ifs at h with hA
        · injection h with h'
          subst h'
          unfold CoreWF
          refine ⟨?_, fun _ => ?_, fun hx => by simp at hx, fun hx => by simp at hx⟩
          · intro f hf
            have := hw1 f hf
            show f.start + f.namelen + 1 ≤ s.cursor + 1; omega
          · show s.cursor ≤ s.cursor + 1; omega
      ·
        split_ifs at h with hA hB hC
        · injection h with h'
          subst h'
          unfold CoreWF
          refine ⟨?_, fun _ => ?_, fun hx => by simp at hx, fun hx => by simp at hx⟩
          · intro f hf
            have := hw1 f hf
            show f.start + f.namelen + 1 ≤ s.cursor + 1; omega
          · show s.cursor ≤ s.cursor + 1; omega
      ·
        have hfs : s.field_start ≤ s.cursor := hw2 hst
        split_ifs at h with hA hB hC hD
        · injection h with h'
          subst h'
          unfold CoreWF
          refine ⟨?_, fun _ => ?_, fun hx => by simp at hx, fun hx => by simp at hx⟩
          · intro f hf
            have := hw1 f hf
            show f.start + f.namelen + 1 ≤ s.cursor + 1; omega
          · show s.field_start ≤ s.cursor + 1; omega
        · injection h with h'
          subst h'
          unfold CoreWF
          refine ⟨?_, fun hx => by simp at hx, fun _ => ?_, fun hx => by simp at hx⟩
          · intro f hf
            have := hw1 f hf
            show f.start + f.namelen + 1 ≤ s.cursor + 1; omega
          · show s.field_start + (s.cursor - s.field_start) + 1 ≤ s.cursor + 1; omega
        · injection h with h'
          subst h'
          unfold CoreWF
          refine ⟨?_, fun hx => by simp at hx, fun hx => by simp at hx, fun _ => ?_⟩
          · intro f hf
            have := hw1 f hf
            show f.start + f.namelen + 1 ≤ s.cursor + 1; omega
          · show s.cursor + 1 ≤ s.field_start + (s.cursor - s.field_start) + 9; omega
      ·
        have hbvl : s.cursor ≤ s.field_start + s.namelen + 9 := hw4 hst
        split_ifs at h with hA hB hC
        · injection h with h'
          subst h'
          unfold CoreWF
          refine ⟨?_, fun hx => by simp at hx, fun hx => by simp at hx, fun _ => ?_⟩
          · intro f hf
            have := hw1 f hf
            show f.start + f.namelen + 1 ≤
              min bound (s.field_start + s.namelen + 9); omega
          · show min bound (s.field_start + s.namelen + 9) ≤
              s.field_start + s.namelen + 9; omega
        · injection h with h'
          subst h'
          unfold CoreWF
          refine ⟨?_, fun hx => by simp at hx, fun hx => by simp at hx,
            fun hx => by simp at hx⟩
          intro f hf
          have := hw1 f hf
          show f.start + f.namelen + 1 ≤
            min bound (s.field_start + s.namelen + 9); omega
      ·
        split_ifs at h with hA hB
        · injection h with h'
          subst h'
          unfold CoreWF
          refine ⟨?_, fun hx => by simp at hx, fun hx => by simp at hx,
            fun hx => by simp at hx⟩
          intro f hf
          have := hw1 f hf
          show f.start + f.namelen + 1 ≤
            min bound (s.field_start + s.namelen + 9 + s.remaining); omega
        · injection h with h'
          subst h'
          unfold CoreWF
          refine ⟨?_, fun hx => by simp at hx, fun hx => by simp at hx,
            fun hx => by simp at hx⟩
          intro f hf
          rcases List.mem_append.1 hf with hf | hf
          · have := hw1 f hf
            show f.start + f.namelen + 1 ≤ s.cursor + 1; omega
          · rw [List.mem_singleton] at hf
            subst hf
            show s.field_start + s.namelen + 1 ≤ s.cursor + 1; omega
      ·
        have hsf : s.field_start + s.namelen + 1 ≤ s.cursor := hw3 hst
        split_ifs at h with hA hB
        · injection h with h'
          subst h'
          unfold CoreWF
          refine ⟨?_, fun hx => by simp at hx, fun hx => by simp at hx,
            fun hx => by simp at hx⟩
          intro f hf
          rcases List.mem_append.1 hf with hf | hf
          · have := hw1 f hf
            show f.start + f.namelen + 1 ≤ s.cursor + 1; omega
          · rw [List.mem_singleton] at hf
            subst hf
            show s.field_start + s.namelen + 1 ≤ s.cursor + 1; omega
        · injection h with h'
          subst h'
          unfold CoreWF
          refine ⟨?_, fun hx => by simp at hx, fun _ => ?_, fun hx => by simp at hx⟩
          · intro f hf
            have := hw1 f hf
            show f.start + f.namelen + 1 ≤ s.cursor + 1; omega
          · show s.field_start + s.namelen + 1 ≤ s.cursor + 1; omega
      · exact absurd h (by simp)

/-- A returning core step yields a well-formed state with the cursor still
inside the delivered bound. -/
theorem coreStep_wf_ret (lim : JournalExportLimits) (input : List Byte)
    (bound : Nat) (s s2 : Core) (res : CoreRes) (hc : s.cursor ≤ bound)
    (hw : CoreWF s) (h : coreStep lim input bound s = .Ret (s2, res)) :
    CoreWF s2 ∧ s2.cursor ≤ bound := by
  obtain ⟨hw1, hw2, hw3, hw4⟩ := hw
  unfold coreStep at h
  by_cases hcb : s.cursor = bound
  · rw [if_pos hcb] at h
    injection h with h2
    injection h2 with ha hb
    subst ha
    exact ⟨⟨hw1, hw2, hw3, hw4⟩, hc⟩
  · rw [if_neg hcb] at h
    have hlt : s.cursor < bound := lt_of_le_of_ne hc hcb
    cases hread : input.get? s.cursor with
    | none => rw [hread] at h; exact absurd h (by simp)
    | some c =>
      rw [hread] at h
      cases hst : s.state <;> rw [hst] at h <;> simp only at h
      · split_ifs at h with hA
        injection h with h2
        injection h2 with ha hb
        subst ha
        constructor
        · unfold CoreWF
          refine ⟨?_, fun hx => by simp at hx, fun hx => by simp at hx,
            fun hx => by simp at hx⟩
          intro f hf
          exact hw1 f hf
        · exact hc
      · split_ifs at h with hA hB hC
        · injection h with h2
          injection h2 with ha hb
          subst ha
          constructor
          · unfold CoreWF
            refine ⟨?_, fun hx => by simp at hx, fun hx => by simp at hx,
              fun hx => by simp at hx⟩
            intro f hf
            exact hw1 f hf
          · exact hc
        · injection h with h2
          injection h2 with ha hb
          subst ha
          constructor
          · unfold CoreWF
            refine ⟨?_, fun hx => by simp at hx, fun hx => by simp at hx,
              fun hx => by simp at hx⟩
            intro f hf
            have := hw1 f hf
            show f.start + f.namelen + 1 ≤ s.cursor + 1; omega
          · show s.cursor + 1 ≤ bound; omega
        · injection h with h2
          injection h2 with ha hb
          subst ha
          constructor
          · unfold CoreWF
            refine ⟨?_, fun hx => by simp at hx, fun hx => by simp at hx,
              fun hx => by simp at hx⟩
            intro f hf
            exact hw1 f hf
          · exact hc
      · split_ifs at h with hA hB hC hD
        · injection h with h2
          injection h2 with ha hb
          subst ha
          constructor
          · unfold CoreWF
            refine ⟨?_, fun hx => by simp at hx, fun hx => by simp at hx,
              fun hx => by simp at hx⟩
            intro f hf
            exact hw1 f hf
          · exact hc
        · injection h with h2
          injection h2 with ha hb
          subst ha
          constructor
          · unfold CoreWF
            refine ⟨?_, fun hx => by simp at hx, fun hx => by simp at hx,
              fun hx => by simp at hx⟩
            intro f hf
            have := hw1 f hf
            show f.start + f.namelen + 1 ≤ s.cursor + 1 - 1; omega
          · show s.cursor + 1 - 1 ≤ bound; omega
      · have hbvl : s.cursor ≤ s.field_start + s.namelen + 9 := hw4 hst
        split_ifs at h with hA hB hC
        injection h with h2
        injection h2 with ha hb
        subst ha
        constructor
        · unfold CoreWF
          refine ⟨?_, fun hx => by simp at hx, fun hx => by simp at hx,
            fun hx => by simp at hx⟩
          intro f hf
          have := hw1 f hf
          show f.start + f.namelen + 1 ≤
            min bound (s.field_start + s.namelen + 9); omega
        · show min bound (s.field_start + s.namelen + 9) ≤ bound; omega
      · split_ifs at h with hA hB
        injection h with h2
        injection h2 with ha hb
        subst ha
        constructor
        · unfold CoreWF
          refine ⟨?_, fun hx => by simp at hx, fun hx => by simp at hx,
            fun hx => by simp at hx⟩
          intro f hf
          exact hw1 f hf
        · exact hc
      · split_ifs at h with hA hB
        injection h with h2
        injection h2 with ha hb
        subst ha
        constructor
        · unfold CoreWF
          refine ⟨?_, fun hx => by simp at hx, fun hx => by simp at hx,
            fun hx => by simp at hx⟩
          intro f hf
          have := hw1 f hf
          show f.start + f.namelen + 1 ≤ s.cursor + 1 - 1; omega
        · show s.cursor + 1 - 1 ≤ bound; omega
      · injection h with h2
        injection h2 with ha hb
        subst ha
        exact ⟨⟨hw1, hw2, hw3, hw4⟩, hc⟩

/-- A core run preserves structural well-formedness and keeps the cursor
inside the bound. -/
theorem coreRun_wf (lim : JournalExportLimits) (input : List Byte) (bound : Nat) :
    ∀ F s s2 res, s.cursor ≤ bound → CoreWF s →
      coreRun lim input bound F s = some (s2, res) →
      CoreWF s2 ∧ s2.cursor ≤ bound := by
  intro F
  induction F with
  | zero => intro s s2 res _ _ h; simp [coreRun] at h
  | succ n ih =>
    intro s s2 res hc hw h
    rw [coreRun] at h
    cases hcs : coreStep lim input bound s with
    | Panic => rw [hcs] at h; exact absurd h (by simp)
    | Ret r =>
      rw [hcs] at h
      obtain ⟨sx, resx⟩ := r
      obtain ⟨hA, hB⟩ : sx = s2 ∧ resx = res := by simpa [Prod.ext_iff] using h
      subst hA
      exact coreStep_wf_ret lim input bound s sx resx hc hw hcs
    | Cont sc =>
      rw [hcs] at h
      exact ih sc s2 res (coreStep_cont_cursor_le lim input bound s sc hc hcs)
        (coreStep_wf_cont lim input bound s sc hc hw hcs) h

/-- Window slices below the delivered bound agree with input slices. -/
theorem sliceP_input {input : List Byte} {p : JournalExportParser}
    (hw : WindowInv input p) {a b : Nat} (hb : b ≤ p.buf.upper) :
    p.buf.sliceP a b = sliceL input a b := by
  rw [sliceP_eq_sliceL _ _ _ hw.off0]
  exact sliceL_agree hw.agree hb

/-- The field iteration reads the same triples through the window as from
the plain input, provided the recorded offsets lie below the cursor. -/
theorem nextField_agree (input : List Byte) (p : JournalExportParser)
    (hw : WindowInv input p)
    (hoffs : ∀ f ∈ p.field_offsets, f.start + f.namelen + 1 ≤ p.cursor)
    (i : Nat) :
    nextField p.buf p.cursor p.field_offsets i =
      nextFieldL input p.cursor p.field_offsets i := by
  have hcu : p.cursor ≤ p.buf.upper := hw.curUp
  unfold nextField nextFieldL
  by_cases hi : i = p.field_offsets.length
  · rw [if_pos hi, if_pos hi]
  · rw [if_neg hi, if_neg hi]
    cases hgi : p.field_offsets.get? i with
    | none => simp only [hgi]
    | some f =>
      have hfb := hoffs f (List.get?_mem hgi)
      obtain ⟨fs, fnl, ft⟩ := f
      simp only at hfb
      by_cases hlast : i = p.field_offsets.length - 1
      · simp only [hgi, if_pos hlast]
        cases ft <;> dsimp only <;>
          rw [@sliceP_input input p hw fs (fs + fnl) (by omega),
            @sliceP_input input p hw _ (p.cursor - 2) (by omega)]
      · simp only [hgi, if_neg hlast]
        cases hgi2 : p.field_offsets.get? (i + 1) with
        | none =>
          simp only [hgi2]
          cases ft <;> dsimp only <;>
            rw [@sliceP_input input p hw fs (fs + fnl) (by omega),
              @sliceP_input input p hw _ 0 (by omega)]
        | some f2 =>
          have hfb2 := hoffs f2 (List.get?_mem hgi2)
          simp only [hgi2]
          cases ft <;> dsimp only <;>
            rw [@sliceP_input input p hw fs (fs + fnl) (by omega),
              @sliceP_input input p hw _ (f2.start - 1) (by omega)]

/-- The consumer's view of a completed entry through the window equals the
view computed from the plain input. -/
theorem observe_transport (input : List Byte) (p : JournalExportParser)
    (hw : WindowInv input p)
    (hoffs : ∀ f ∈ p.field_offsets, f.start + f.namelen + 1 ≤ p.cursor) :
    (RefEntry.as_bytes p, entryFields p) = coreObserve input (Core.of p) := by
  have hnf : nextField p.buf p.cursor p.field_offsets =
      nextFieldL input p.cursor p.field_offsets :=
    funext (nextField_agree input p hw hoffs)
  unfold RefEntry.as_bytes coreObserve entryFields entryFieldsL Core.of
  simp only [Prod.mk.injEq]
  constructor
  · cases hofs : p.field_offsets with
    | nil => rfl
    | cons f rest =>
      show some (p.buf.sliceP f.start p.cursor) = some (sliceL input f.start p.cursor)
      rw [@sliceP_input input p hw f.start p.cursor hw.curUp]
  · rw [hnf]

/-- Writing `n` fresh input bytes into the free space and extending the
window: it succeeds, the window grows to `upper + n`, and the new window
is the corresponding input prefix. -/
theorem feed_step (input : List Byte) (sb : ShiftBuffer) (n : Nat)
    (hoff : sb.offset = 0) (hup : sb.upper ≤ sb.buf.length)
    (hagree : sb.buf.take sb.upper = input.take sb.upper)
    (hfree : n ≤ sb.freeLen) (hrest : n ≤ input.length - sb.upper) :
    ∃ b2 b3, sb.writeFree ((input.drop sb.upper).take n) = some b2 ∧
      b2.extendB n = some b3 ∧ b3.offset = sb.offset ∧ b3.lower = sb.lower ∧
      b3.upper = sb.upper + n ∧ b3.buf.length = sb.buf.length ∧
      b3.buf.take (sb.upper + n) = input.take (sb.upper + n) := by
  have hlen : ((input.drop sb.upper).take n).length = n := by
    rw [List.length_take, List.length_drop]; omega
  have hcond : sb.upper + n ≤ sb.buf.length := by
    unfold ShiftBuffer.freeLen ShiftBuffer.relative_pos at hfree
    rw [hoff] at hfree
    omega
  have hblen : (sb.buf.take sb.upper ++ (input.drop sb.upper).take n ++
      sb.buf.drop (sb.upper + n)).length = sb.buf.length := by
    simp only [List.length_append, List.length_take, List.length_drop, hlen]
    omega
  have hpre : (sb.buf.take sb.upper ++ (input.drop sb.upper).take n).length =
      sb.upper + n := by
    simp only [List.length_append, List.length_take, hlen]
    omega
  have htake : (sb.buf.take sb.upper ++ (input.drop sb.upper).take n ++
      sb.buf.drop (sb.upper + n)).take (sb.upper + n) = input.take (sb.upper + n) := by
    rw [List.take_left' hpre, List.take_add, ← hagree]
  refine ⟨{ sb with buf := sb.buf.take sb.upper ++ (input.drop sb.upper).take n ++ sb.buf.drop (sb.upper + n) }, { sb with buf := sb.buf.take sb.upper ++ (input.drop sb.upper).take n ++ sb.buf.drop (sb.upper + n), upper := sb.upper + n }, ?_, ?_, ?_, ?_, ?_, ?_, ?_⟩
  · simp only [ShiftBuffer.writeFree, ShiftBuffer.relative_pos, hoff, Nat.sub_zero, hlen]
    rw [if_pos hcond]
  · simp only [ShiftBuffer.extendB, ShiftBuffer.relative_pos, hoff, Nat.sub_zero, hblen]
    rw [if_pos hcond]
  · exact rfl
  · exact rfl
  · exact rfl
  · exact hblen
  · exact htake

/-- One `parse_next` loop iteration suffices when the core run over the
delivered prefix returns without suspending. -/
theorem parseNextLoop_corr_noSuspend (input : List Byte) (σ : Nat → Nat)
    (st : JournalExportRead) (k F : Nat) (s2 : Core) (res : CoreRes)
    (hns : res ≠ .Suspend)
    (hw : WindowInv input st.parse_state)
    (hready : st.parse_state.buffer_state = .Underfilled ∨
      st.parse_state.cursor < st.parse_state.buf.upper)
    (hrun : coreRun st.parse_state.limits input st.parse_state.buf.upper F
      (Core.of st.parse_state) = some (s2, res)) :
    ∃ st2, parseNextLoop σ F 1 k st = some (driverOutcome s2 res, st2, k) ∧
      st2.input = st.input ∧
      st2.parse_state.limits = st.parse_state.limits ∧
      (res = .Ok → WindowInv input st2.parse_state ∧
        st2.parse_state.buf = st.parse_state.buf ∧
        st2.parse_state.buffer_state = .Underfilled ∧
        Core.of st2.parse_state = s2) := by
  obtain ⟨p2, hloop, hcof, hlim, hsus, hnsus, hok⟩ :=
    run_corr input F st.parse_state s2 res hw hready hrun
  refine ⟨{ st with parse_state := p2 }, ?_, rfl, hlim, ?_⟩
  · rw [show (1 : Nat) = 0 + 1 from rfl, parseNextLoop, hloop]
    cases res with
    | Ok => rfl
    | Err e => rfl
    | Suspend => exact absurd rfl hns
    | CleanEof => rfl
  · intro hres
    obtain ⟨hbuf, hbs⟩ := hnsus hns
    exact ⟨hok hres, hbuf, hbs, hcof⟩

/-- When the whole input has already been delivered, the `parse_next` loop
completes with the outcome of the full-input core run: a suspension means
the source is exhausted and becomes clean end-of-stream at `EntryStart`
and `UnexpectedEof` elsewhere. -/
theorem parseNextLoop_corr_end (input : List Byte) (σ : Nat → Nat)
    (st : JournalExportRead) (k F : Nat) (s2 : Core) (res : CoreRes)
    (hful : st.parse_state.buf.upper = input.length)
    (hw : WindowInv input st.parse_state)
    (hin : st.input = input.drop st.parse_state.buf.upper)
    (hcap : 0 < st.parse_state.buf.buf.length)
    (hready : st.parse_state.buffer_state = .Underfilled ∨
      st.parse_state.cursor < st.parse_state.buf.upper)
    (hrun : coreRun st.parse_state.limits input input.length F
      (Core.of st.parse_state) = some (s2, res)) :
    ∃ pf df st2 k2,
      parseNextLoop σ pf df k st = some (driverOutcome s2 res, st2, k2) ∧
      st2.parse_state.limits = st.parse_state.limits ∧
      (res = .Ok → DriverInv input st2 ∧ Core.of st2.parse_state = s2) := by
  rw [← hful] at hrun
  by_cases hns : res = .Suspend
  case neg =>
    obtain ⟨st2, hpn, hinp, hlim, hpost⟩ :=
      parseNextLoop_corr_noSuspend input σ st k F s2 res hns hw hready hrun
    refine ⟨F, 1, st2, k, hpn, hlim, ?_⟩
    intro hres
    obtain ⟨hwin, hbuf, hbs, hcof⟩ := hpost hres
    refine ⟨⟨hwin, ?_, ?_, Or.inl hbs⟩, hcof⟩
    · rw [hinp, hin, hbuf]
    · rw [hbuf]; exact hcap
  case pos =>
    subst hns
    have hcur2 : s2.cursor = st.parse_state.buf.upper :=
      coreRun_suspend_cursor _ input _ F _ s2 hrun
    obtain ⟨p2, hloop, hcof, hlim, hsus, hnsus, hok⟩ :=
      run_corr input F st.parse_state s2 .Suspend hw hready hrun
    obtain ⟨hbs2, hw2, hlen2, hgrow2, hup2⟩ := hsus rfl
    obtain ⟨F', rfl⟩ : ∃ F', F = F' + 1 := by
      cases F with
      | zero => simp [coreRun] at hrun
      | succ m => exact ⟨m, rfl⟩
    have hin0 : st.input.length = 0 := by
      rw [hin, List.length_drop, hful]; omega
    have hn0 : min (σ k) (min p2.buf.freeLen st.input.length) = 0 := by
      rw [hin0]; simp
    obtain ⟨b2, b3, hwf, hext, hoff3, hlow3, hup3, hlen3, htk3⟩ :=
      feed_step input p2.buf 0 hw2.off0 hw2.upLen
        (by rw [hw2.agree]) (by omega) (by omega)
    have hp2c : p2.cursor = st.parse_state.buf.upper := by
      have := congrArg Core.cursor hcof
      simp only [Core.of] at this
      omega
    have hcu3 : ({ p2 with buf := b3 } : JournalExportParser).cursor =
        ({ p2 with buf := b3 } : JournalExportParser).buf.upper := by
      show p2.cursor = b3.upper
      rw [hup3, hup2, hp2c]
      omega
    have hps3 : ({ p2 with buf := b3 } : JournalExportParser).parse_state = s2.state := by
      have := congrArg Core.state hcof
      simp only [Core.of] at this
      exact this
    have hstep3 : parseStep { p2 with buf := b3 } =
        (if s2.state = .EntryStart
          then .Ret ({ p2 with buf := b3 }, .Eof)
          else .Ret ({ p2 with buf := b3 }, .Err .UnexpectedEof)) := by
      rw [parseStep, if_pos hcu3]
      rw [show ({ p2 with buf := b3 } : JournalExportParser).buffer_state = .Filled from hbs2]
      rw [if_pos rfl, hps3]
    refine ⟨F' + 1, 2, { input := st.input, parse_state := { p2 with buf := b3 } },
      k + 1, ?_, hlim, fun hres => nomatch hres⟩
    rw [List.take_zero] at hwf
    rw [show (2 : Nat) = 1 + 1 from rfl, parseNextLoop, hloop]
    simp only [mapCoreRes, hn0, List.take_zero, List.drop_zero]
    rw [hwf]
    dsimp only
    rw [hext]
    dsimp only
    rw [show (1 : Nat) = 0 + 1 from rfl, parseNextLoop]
    by_cases hse : s2.state = .EntryStart
    · have hstepE : parseStep { p2 with buf := b3 } =
          .Ret ({ p2 with buf := b3 }, .Eof) := by
        rw [hstep3, if_pos hse]
      rw [parseLoop_ret hstepE F']
      simp only [driverOutcome]
      rw [if_pos hse]
    · have hstepE : parseStep { p2 with buf := b3 } =
          .Ret ({ p2 with buf := b3 }, .Err .UnexpectedEof) := by
        rw [hstep3, if_neg hse]
      rw [parseLoop_ret hstepE F']
      simp only [driverOutcome]
      rw [if_neg hse]

/-- The `parse_next` loop of the synchronous driver produces exactly the
outcome of the full-input core run, for every chunk schedule that always
delivers at least one byte.  Induction on the undelivered input. -/
theorem parseNextLoop_corr (input : List Byte) (σ : Nat → Nat)
    (hσ : ∀ i, 0 < σ i) :
    ∀ N (st : JournalExportRead) (k F : Nat) (s2 : Core) (res : CoreRes),
      st.input.length ≤ N →
      DriverInv input st →
      coreRun st.parse_state.limits input input.length F
        (Core.of st.parse_state) = some (s2, res) →
      ∃ pf df st2 k2,
        parseNextLoop σ pf df k st = some (driverOutcome s2 res, st2, k2) ∧
        st2.parse_state.limits = st.parse_state.limits ∧
        (res = .Ok → DriverInv input st2 ∧ Core.of st2.parse_state = s2) := by
  intro N
  induction N with
  | zero =>
    intro st k F s2 res hlen hdi hrun
    obtain ⟨hw, hin, hcap, hready⟩ := hdi
    have hful : st.parse_state.buf.upper = input.length := by
      have h1 := hw.upInput
      have h2 : st.input.length = input.length - st.parse_state.buf.upper := by
        rw [hin, List.length_drop]
      omega
    exact parseNextLoop_corr_end input σ st k F s2 res hful hw hin hcap hready hrun
  | succ N ih =>
    intro st k F s2 res hlen hdi hrun
    obtain ⟨hw, hin, hcap, hready⟩ := hdi
    by_cases hful : st.parse_state.buf.upper = input.length
    · exact parseNextLoop_corr_end input σ st k F s2 res hful hw hin hcap hready hrun
    · have hlt : st.parse_state.buf.upper < input.length :=
        lt_of_le_of_ne hw.upInput hful
      have hc0 : (Core.of st.parse_state).cursor ≤ st.parse_state.buf.upper := hw.curUp
      rcases coreRun_split st.parse_state.limits input st.parse_state.buf.upper
          input.length (le_of_lt hlt) (le_refl _) F (Core.of st.parse_state)
          (s2, res) hc0 hrun with ⟨F2, hb⟩ | ⟨F2, s1, hsusp, hc1, F3, hres3⟩
      · have hns : res ≠ .Suspend := by
          intro hcon
          subst hcon
          have h1 := coreRun_suspend_cursor st.parse_state.limits input
            st.parse_state.buf.upper F2 (Core.of st.parse_state) s2 hb
          have h2 := coreRun_suspend_cursor st.parse_state.limits input
            input.length F (Core.of st.parse_state) s2 hrun
          omega
        obtain ⟨st2, hpn, hinp, hlim2, hpost⟩ :=
          parseNextLoop_corr_noSuspend input σ st k F2 s2 res hns hw hready hb
        refine ⟨F2, 1, st2, k, hpn, hlim2, ?_⟩
        intro hok2
        obtain ⟨hwin, hbuf, hbs, hcof⟩ := hpost hok2
        exact ⟨⟨hwin, by rw [hinp, hin, hbuf], by rw [hbuf]; exact hcap,
          Or.inl hbs⟩, hcof⟩
      · obtain ⟨p2, hloop, hcof1, hlim1, hsus, hnsus, _⟩ :=
          run_corr input F2 st.parse_state s1 .Suspend hw hready hsusp
        obtain ⟨hbs2, hw2, hlen2, hgrow2, hup2⟩ := hsus rfl
        simp only [mapCoreRes] at hloop
        have hp2c : p2.cursor = p2.buf.upper := by
          have := congrArg Core.cursor hcof1
          simp only [Core.of] at this
          omega
        have hfreelen : p2.buf.freeLen = p2.buf.buf.length - p2.buf.upper := by
          unfold ShiftBuffer.freeLen ShiftBuffer.relative_pos
          rw [hw2.off0]
          omega
        have hfree_pos : 0 < p2.buf.freeLen := by
          have := hgrow2 hcap
          omega
        have hrest_pos : 0 < st.input.length := by
          rw [hin, List.length_drop]; omega
        have hn_pos : 0 < min (σ k) (min p2.buf.freeLen st.input.length) :=
          lt_min (hσ k) (lt_min hfree_pos hrest_pos)
        have hnfree : min (σ k) (min p2.buf.freeLen st.input.length) ≤ p2.buf.freeLen :=
          le_trans (min_le_right _ _) (min_le_left _ _)
        have hnrest : min (σ k) (min p2.buf.freeLen st.input.length) ≤ st.input.length :=
          le_trans (min_le_right _ _) (min_le_right _ _)
        have hinlen : st.input.length = input.length - p2.buf.upper := by
          rw [hin, List.length_drop, hup2]
        have hst_in : st.input = input.drop p2.buf.upper := by
          rw [hin, hup2]
        obtain ⟨b2, b3, hwf, hext, hoff3, hlow3, hup3, hlen3, htk3⟩ :=
          feed_step input p2.buf (min (σ k) (min p2.buf.freeLen st.input.length))
            hw2.off0 hw2.upLen hw2.agree hnfree (by omega)
        rw [← hst_in] at hwf
        have hw3 : WindowInv input ({ p2 with buf := b3 } : JournalExportParser) := by
          refine ⟨?_, ?_, ?_, ?_, ?_, ?_⟩
          · show b3.offset = 0
            rw [hoff3]; exact hw2.off0
          · show b3.lower = 0
            rw [hlow3]; exact hw2.low0
          · show b3.upper ≤ b3.buf.length
            have h1 := hw2.upLen
            rw [hup3, hlen3]; omega
          · show b3.upper ≤ input.length
            rw [hup3]; omega
          · show b3.buf.take b3.upper = input.take b3.upper
            rw [hup3]; exact htk3
          · show p2.cursor ≤ b3.upper
            rw [hup3]; omega
        have hdi3 : DriverInv input { input := st.input.drop (min (σ k) (min p2.buf.freeLen st.input.length)), parse_state := { p2 with buf := b3 } } := by
          refine ⟨hw3, ?_, ?_, Or.inr ?_⟩
          · show st.input.drop _ = input.drop b3.upper
            rw [hup3, ← List.drop_drop, ← hst_in]
          · show 0 < b3.buf.length
            rw [hlen3]; omega
          · show p2.cursor < b3.upper
            rw [hup3]; omega
        have hrun3 : coreRun ({ input := st.input.drop (min (σ k) (min p2.buf.freeLen st.input.length)), parse_state := { p2 with buf := b3 } } : JournalExportRead).parse_state.limits input input.length F3 (Core.of ({ input := st.input.drop (min (σ k) (min p2.buf.freeLen st.input.length)), parse_state := { p2 with buf := b3 } } : JournalExportRead).parse_state) = some (s2, res) := by
          show coreRun p2.limits input input.length F3
            (Core.of ({ p2 with buf := b3 } : JournalExportParser)) = some (s2, res)
          rw [show Core.of ({ p2 with buf := b3 } : JournalExportParser) = s1 from hcof1]
          rw [hlim1]
          exact hres3
        obtain ⟨pf, df, st2, k2, hloopI, hlimI, hpostI⟩ :=
          ih { input := st.input.drop (min (σ k) (min p2.buf.freeLen st.input.length)), parse_state := { p2 with buf := b3 } } (k + 1) F3 s2 res (by show (st.input.drop (min (σ k) (min p2.buf.freeLen st.input.length))).length ≤ N; rw [List.length_drop]; omega) hdi3 hrun3
        refine ⟨max pf F2, df + 1, st2, k2, ?_, ?_, hpostI⟩
        · rw [parseNextLoop]
          rw [parseLoop_mono F2 (max pf F2) st.parse_state (p2, ParseResult.Underfilled)
            (le_max_right pf F2) hloop]
          dsimp only
          rw [hwf]
          dsimp only
          rw [hext]
          dsimp only
          exact parseNextLoop_mono σ df df pf (max pf F2) (k + 1) _ _
            (le_refl df) (le_max_left pf F2) hloopI
        · rw [hlimI]; exact hlim1

/-- Driving the reader to completion produces exactly the outcome of the
core driver loop over the whole input, for every chunk schedule that
always delivers at least one byte. -/
theorem runAll_corr (input : List Byte) (σ : Nat → Nat) (hσ : ∀ i, 0 < σ i) :
    ∀ G (st : JournalExportRead) (k pf : Nat)
      (v : List (Option (List Byte) × List (List Byte × List Byte × FieldType)) × Terminal),
      DriverInv input st →
      CoreWF (Core.of st.parse_state) →
      coreRunAll st.parse_state.limits input pf G (Core.of st.parse_state) = some v →
      ∃ pf2 df2 f2, runAll σ pf2 df2 f2 k st = some v := by
  intro G
  induction G with
  | zero => intro st k pf v _ _ h; simp [coreRunAll] at h
  | succ G ih =>
    intro st k pf v hdi hwf h
    obtain ⟨hw, hin, hcap, hready⟩ := hdi
    rw [coreRunAll] at h
    cases hcr : coreRun st.parse_state.limits input input.length pf
        { Core.of st.parse_state with offsets := [] } with
    | none => rw [hcr] at h; exact absurd h (by simp)
    | some r =>
      rw [hcr] at h
      obtain ⟨s2, res⟩ := r
      have hdi' : DriverInv input { st with parse_state := st.parse_state.clear_entry } :=
        ⟨⟨hw.off0, hw.low0, hw.upLen, hw.upInput, hw.agree, hw.curUp⟩, hin, hcap, hready⟩
      have hrun' : coreRun
          ({ st with parse_state := st.parse_state.clear_entry } :
            JournalExportRead).parse_state.limits input input.length pf
          (Core.of ({ st with parse_state := st.parse_state.clear_entry } :
            JournalExportRead).parse_state) = some (s2, res) := hcr
      obtain ⟨pf1, df1, st2, k2, hpn, hlim, hpost⟩ :=
        parseNextLoop_corr input σ hσ
          ({ st with parse_state := st.parse_state.clear_entry } :
            JournalExportRead).input.length
          { st with parse_state := st.parse_state.clear_entry } k pf s2 res
          (le_refl _) hdi' hrun'
      have hwf0 : CoreWF { Core.of st.parse_state with offsets := ([] : List FieldOffset) } := by
        obtain ⟨w1, w2, w3, w4⟩ := hwf
        exact ⟨fun f hf => absurd hf (List.not_mem_nil f), w2, w3, w4⟩
      have hcur0 : ({ Core.of st.parse_state with offsets := ([] : List FieldOffset) } :
          Core).cursor ≤ input.length := by
        show st.parse_state.cursor ≤ input.length
        have h1 := hw.curUp
        have h2 := hw.upInput
        omega
      obtain ⟨hwf2, hcur2⟩ := coreRun_wf st.parse_state.limits input input.length pf
        { Core.of st.parse_state with offsets := [] } s2 res hcur0 hwf0 hcr
      have hpn' : parse_next σ pf1 df1 k st = some (driverOutcome s2 res, st2, k2) := hpn
      cases res with
      | Ok =>
        simp only [driverOutcome] at hpn'
        simp only at h
        cases hrec : coreRunAll st.parse_state.limits input pf G s2 with
        | none => rw [hrec] at h; exact absurd h (by simp)
        | some obst =>
          rw [hrec] at h
          obtain ⟨obs, t⟩ := obst
          obtain rfl : (coreObserve input s2 :: obs, t) = v := by simpa using h
          obtain ⟨hdi2, hcof2⟩ := hpost rfl
          have hwf2' : CoreWF (Core.of st2.parse_state) := by rw [hcof2]; exact hwf2
          have hrec' : coreRunAll st2.parse_state.limits input pf G
              (Core.of st2.parse_state) = some (obs, t) := by
            rw [show st2.parse_state.limits = st.parse_state.limits from hlim, hcof2]
            exact hrec
          obtain ⟨pf2, df2, f2, hR⟩ := ih st2 k2 pf (obs, t) hdi2 hwf2' hrec'
          have hobs : observeEntry st2 = coreObserve input s2 := by
            rw [← hcof2]
            exact observe_transport input st2.parse_state hdi2.1 hwf2'.1
          refine ⟨max pf1 pf2, max df1 df2, f2 + 1, ?_⟩
          rw [runAll]
          rw [parse_next_mono σ pf1 (max pf1 pf2) df1 (max df1 df2) k st _
            (le_max_left df1 df2) (le_max_left pf1 pf2) hpn']
          dsimp only
          rw [runAll_mono σ f2 f2 pf2 (max pf1 pf2) df2 (max df1 df2) k2 st2 _
            (le_refl f2) (le_max_right pf1 pf2) (le_max_right df1 df2) hR]
          rw [hobs]
      | Err e =>
        simp only [driverOutcome] at hpn'
        obtain rfl : (([], Terminal.Fail e) : _ × Terminal) = v := by simpa using h
        refine ⟨pf1, df1, 1, ?_⟩
        rw [runAll, hpn']
      | Suspend =>
        simp only [driverOutcome] at hpn'
        simp only at h
        by_cases hse : s2.state = .EntryStart
        · rw [if_pos hse] at h hpn'
          obtain rfl : (([], Terminal.Clean) : _ × Terminal) = v := by simpa using h
          refine ⟨pf1, df1, 1, ?_⟩
          rw [runAll, hpn']
        · rw [if_neg hse] at h hpn'
          obtain rfl : (([], Terminal.Fail .UnexpectedEof) : _ × Terminal) = v := by
            simpa using h
          refine ⟨pf1, df1, 1, ?_⟩
          rw [runAll, hpn']
      | CleanEof =>
        simp only [driverOutcome] at hpn'
        obtain rfl : (([], Terminal.Clean) : _ × Terminal) = v := by simpa using h
        refine ⟨pf1, df1, 1, ?_⟩
        rw [runAll, hpn']

/-- C1: the buffer invariant fails on the code.  At the concrete reachable
state with backing store `[65, 66, 67, 68]`, window `[3, 4]` and
`offset = 0`, the pointer 3 lies inside the window both before and after
`make_room` (which shifts, since the window reaches the end of the store
and `lower ≠ offset`), yet indexing at 3 yields byte 68 before the call and
byte 66 after it: `shift` copies from backing index `upper - lower` instead
of `lower - offset`, so it does not relocate the bytes of the window
`[lower, upper)` to backing index 0. -/
theorem c1_shift_corrupts_window :
    ∃ s t : ShiftBuffer,
      ((((ShiftBuffer.new 4).writeFree [65, 66, 67, 68]).bind
          (fun b => b.extendB 4)).bind (fun b => b.shrinkB 3)) = some s ∧
      s.make_room = some t ∧
      s.lower = 3 ∧ s.upper = 4 ∧ t.lower = 3 ∧ t.upper = 4 ∧
      s.indexP 3 = some 68 ∧ t.indexP 3 = some 66 :=
  ⟨⟨[65, 66, 67, 68], 0, 3, 4⟩, ⟨[66, 66, 67, 68], 3, 3, 4⟩,
    by decide, by decide, rfl, rfl, rfl, rfl, by decide, by decide⟩

/-- C9: at the concrete reachable state with backing store `[1, 2, 3, 4]`,
window `[1, 4]` and `offset = 0`, the window reaches the end of the store
and `lower ≠ offset`, so `make_room` takes the shift branch; but the copy
loop of `shift` reads backing index `p + d` for `d = upper - lower = 3`,
which runs out of bounds (`4, 5 ≥ buf.len()`), so `make_room` panics
(`none`) instead of relocating the window and returning the non-empty free
tail. -/
theorem c9_make_room_shift_panics :
    ∃ s : ShiftBuffer,
      ((((ShiftBuffer.new 4).writeFree [1, 2, 3, 4]).bind
          (fun b => b.extendB 4)).bind (fun b => b.shrinkB 1)) = some s ∧
      s.relative_pos s.upper = s.buf.length ∧ s.lower ≠ s.offset ∧
      s.make_room = none :=
  ⟨⟨[1, 2, 3, 4], 0, 1, 4⟩, by decide, by decide, by decide, by decide⟩

/-- C3: on an empty byte source the driver does not return clean
end-of-stream: because the parser is initialised in state `FieldStart`
instead of `EntryStart`, the first `parse_next` call returns the error
`UnexpectedEof` (shown here for the default limits on an 8-byte buffer;
the trace never looks at the buffer contents, so the buffer size is
immaterial). -/
theorem c3_empty_input_unexpected_eof :
    (parse_next (fun _ => 2) 20 10 0
        (JournalExportRead.mk0 JournalExportLimits.default 8 [])).map
      Prod.fst = some (.error .UnexpectedEof) ∧
    Except.error JournalExportReadError.UnexpectedEof ≠
      (Except.ok none : Except JournalExportReadError (Option Unit)) := by
  exact ⟨by decide, by decide⟩

/-- C4: the max-total-entry-size cap is not enforced by the parser: with
`max_entry_size = 4`, the 6-byte entry `A=bb` followed by the blank line is
parsed successfully and the run ends cleanly; no `EntryTooLarge` error is
ever produced (the error variant and the configured limit are dead). -/
theorem c4_entry_size_cap_unenforced :
    runAll (fun _ => 7) 40 10 5 0
        (JournalExportRead.mk0 ⟨100, 100, 4⟩ 8 [65, 61, 98, 98, 10, 10]) =
      some ([(some [65, 61, 98, 98, 10, 10], [([65], [98, 98], .String)])], .Clean) ∧
    (Terminal.Clean ≠ .Fail .EntryTooLarge) := by
  exact ⟨by decide, by decide⟩

/-- C6: a digit as the first byte of the very first entry is accepted, not
rejected: the parser starts in state `FieldStart`, which admits any
alphanumeric byte, so the input `0=x` plus blank line yields one entry with
field name `[48]` and a clean end of stream instead of the fatal
`UnexpectedCharacter 48` required by the claim. -/
theorem c6_first_entry_digit_accepted :
    runAll (fun _ => 6) 40 10 5 0
        (JournalExportRead.mk0 JournalExportLimits.default 8 [48, 61, 120, 10, 10]) =
      some ([(some [48, 61, 120, 10, 10], [([48], [120], .String)])], .Clean) ∧
    (Terminal.Clean ≠ .Fail (.UnexpectedCharacter 48)) := by
  exact ⟨by decide, by decide⟩

/-- C5 counterexample: after `parse` returns the fatal
`UnexpectedCharacter 33` (input `!`), the parser is in state `Eof`, but the
next `parse` call returns the clean `ParseResult.Eof`, not the recorded
failure: no error is recorded and fatal errors are not repeated. -/
theorem c5_error_not_repeated :
    (parse_next (fun _ => 2) 20 10 0
        (JournalExportRead.mk0 JournalExportLimits.default 8 [33])).map Prod.fst =
      some (.error (.UnexpectedCharacter 33)) ∧
    ((parse_next (fun _ => 2) 20 10 0
        (JournalExportRead.mk0 JournalExportLimits.default 8 [33])).bind
      (fun x => parseLoop 20 x.2.1.parse_state)).map Prod.snd = some .Eof ∧
    (ParseResult.Eof ≠ .Err (.UnexpectedCharacter 33)) := by
  exact ⟨by decide, by decide, by decide⟩

/-- C2 counterexample: on the valid single-entry input `A=b` plus blank
line, the parser yields exactly one entry, but `as_bytes()` returns the
five bytes `[65, 61, 98, 10, 10]` - the original bytes including the
terminating blank line - and not the four bytes with the terminator
excluded, as the claim states. -/
theorem c2_as_bytes_includes_terminator :
    (runAll (fun _ => 6) 40 10 5 0
        (JournalExportRead.mk0 JournalExportLimits.default 8 [65, 61, 98, 10, 10])).map
      (fun x => (x.1.map Prod.fst, x.2)) =
      some ([some [65, 61, 98, 10, 10]], .Clean) ∧
    (some [65, 61, 98, 10, 10] ≠ some [65, 61, 98, 10]) := by
  exact ⟨by decide, by decide⟩

/-- C8 counterexample: a binary field whose declared 8-byte length 12289
exceeds the default max field-value size 12288, with the source ending
right after the length field, produces `UnexpectedEof`, not
`FieldValueTooLong`: the parser only decodes (and checks) the length once
the 8 length bytes plus one further byte are in the window, so the check
does wait for a payload byte. -/
theorem c8_declared_length_check_needs_extra_byte :
    (parse_next (fun _ => 11) 30 10 0
        (JournalExportRead.mk0 JournalExportLimits.default 16
          ([75, 10] ++ le8 12289))).map Prod.fst = some (.error .UnexpectedEof) ∧
    12289 > JournalExportLimits.default.max_field_value_size ∧
    (Except.error (ε := JournalExportReadError) (α := Option Unit) .UnexpectedEof ≠
      .error .FieldValueTooLong) := by
  exact ⟨by decide, by decide, by decide⟩

/-- C10: `as_bytes()` on an entry view whose field-offset list is empty
indexes `field_offsets[0]` out of bounds, i.e. panics (`none` in the
model), both for the borrowed and for the owned view - in particular on a
freshly created parser and after `clear_entry` - while `iter()` yields the
empty sequence there; and whenever the offset list is non-empty,
`as_bytes()` is total (returns `some`). -/
theorem c10_as_bytes_panics_on_empty_entry (p : JournalExportParser)
    (limits : JournalExportLimits) (n : Nat) :
    (p.field_offsets = [] →
      RefEntry.as_bytes p = none ∧
      OwnedEntry.as_bytes (RefEntry.to_owned p) = none ∧
      entryFields p = []) ∧
    RefEntry.as_bytes (JournalExportParser.new limits n) = none ∧
    RefEntry.as_bytes p.clear_entry = none ∧
    (p.field_offsets ≠ [] → ∃ bs, RefEntry.as_bytes p = some bs) := by
  refine ⟨fun h => ?_, ?_, ?_, fun h => ?_⟩
  · simp [RefEntry.as_bytes, OwnedEntry.as_bytes, RefEntry.to_owned, entryFields, h]
  · simp [RefEntry.as_bytes, JournalExportParser.new]
  · simp [RefEntry.as_bytes, JournalExportParser.clear_entry]
  · match hf : p.field_offsets with
    | [] => exact absurd hf h
    | f :: rest =>
      exact ⟨p.buf.sliceP f.start p.cursor, by simp [RefEntry.as_bytes, hf]⟩

/-- C10 witness: the hypotheses of `c10_as_bytes_panics_on_empty_entry`
discharged at concrete states: the fresh 8-byte parser (empty offset list)
and the concrete one-field state `sampleEntryParser`. -/
theorem c10_witness :
    (RefEntry.as_bytes (JournalExportParser.new JournalExportLimits.default 8) = none ∧
      OwnedEntry.as_bytes (RefEntry.to_owned (JournalExportParser.new JournalExportLimits.default 8)) = none ∧
      entryFields (JournalExportParser.new JournalExportLimits.default 8) = []) ∧
    (∃ bs, RefEntry.as_bytes sampleEntryParser = some bs) :=
  ⟨(c10_as_bytes_panics_on_empty_entry (JournalExportParser.new JournalExportLimits.default 8)
      JournalExportLimits.default 8).1 (by decide),
   (c10_as_bytes_panics_on_empty_entry sampleEntryParser JournalExportLimits.default 8).2.2.2
      (by decide)⟩

/-- C7: parsing is independent of input chunking.  If the abstract core
driver over the whole input terminates with outcome `v` (the list of
completed-entry observations plus the terminal result), then for every
chunk schedule `σ` that always delivers at least one byte, the real
synchronous driver — which suspends at the window's upper bound via
`Underfilled`/`make_room`/`extend` cycles of `σ`-sized chunks — reaches
exactly `v` for some fuel, and every terminating run equals `v`.
Instantiating the statement at two different schedules (for instance a
byte-at-a-time schedule and an everything-at-once schedule) shows that the
sequence of outcomes is identical to feeding the whole input in one
chunk. -/
theorem c7_chunking_independence
    (lim : JournalExportLimits) (input : List Byte) (bufSize : Nat)
    (hbs : 0 < bufSize) (σ : Nat → Nat) (hσ : ∀ i, 0 < σ i)
    (pf G : Nat)
    (v : List (Option (List Byte) × List (List Byte × List Byte × FieldType)) × Terminal)
    (hcore : coreRunAll lim input pf G
      (Core.of (JournalExportParser.new lim bufSize)) = some v) :
    (∀ k, ∃ pf2 df2 f2,
      runAll σ pf2 df2 f2 k (JournalExportRead.mk0 lim bufSize input) = some v) ∧
    (∀ pf3 df3 f3 k w,
      runAll σ pf3 df3 f3 k (JournalExportRead.mk0 lim bufSize input) = some w →
        w = v) := by
  have hdi : DriverInv input (JournalExportRead.mk0 lim bufSize input) := by
    refine ⟨⟨rfl, rfl, Nat.zero_le _, Nat.zero_le _, rfl, Nat.le_refl 0⟩,
      List.drop_zero input |>.symm, ?_, Or.inl rfl⟩
    show 0 < (List.replicate bufSize (0 : Byte)).length
    rw [List.length_replicate]
    exact hbs
  have hwf : CoreWF (Core.of (JournalExportParser.new lim bufSize)) := by
    unfold CoreWF
    refine ⟨fun f hf => absurd hf (List.not_mem_nil f), ?_, ?_, ?_⟩ <;>
      · intro hx
        simp only [Core.of, JournalExportParser.new] at hx
        exact absurd hx (by decide)
  have hex : ∀ k, ∃ pf2 df2 f2,
      runAll σ pf2 df2 f2 k (JournalExportRead.mk0 lim bufSize input) = some v :=
    fun k => runAll_corr input σ hσ G (JournalExportRead.mk0 lim bufSize input)
      k pf v hdi hwf hcore
  refine ⟨hex, ?_⟩
  intro pf3 df3 f3 k w hw
  obtain ⟨pf2, df2, f2, hv⟩ := hex k
  have h1 : runAll σ (max pf3 pf2) (max df3 df2) (max f3 f2) k
      (JournalExportRead.mk0 lim bufSize input) = some w :=
    runAll_mono σ f3 (max f3 f2) pf3 (max pf3 pf2) df3 (max df3 df2) k _ _
      (le_max_left f3 f2) (le_max_left pf3 pf2) (le_max_left df3 df2) hw
  have h2 : runAll σ (max pf3 pf2) (max df3 df2) (max f3 f2) k
      (JournalExportRead.mk0 lim bufSize input) = some v :=
    runAll_mono σ f2 (max f3 f2) pf2 (max pf3 pf2) df2 (max df3 df2) k _ _
      (le_max_right f3 f2) (le_max_right pf3 pf2) (le_max_right df3 df2) hv
  have := h1.symm.trans h2
  exact Option.some_injective _ this

theorem c7_witness :
    ((0 < 8) ∧ (∀ i : Nat, 0 < (fun _ : Nat => 1) i) ∧
      coreRunAll ⟨100, 100, 100⟩ [65, 61, 98, 10, 10] 32 3
        (Core.of (JournalExportParser.new ⟨100, 100, 100⟩ 8)) =
        some ([(some [65, 61, 98, 10, 10], [([65], [98], .String)])], .Clean)) ∧
    ((∀ k, ∃ pf2 df2 f2,
      runAll (fun _ : Nat => 1) pf2 df2 f2 k
        (JournalExportRead.mk0 ⟨100, 100, 100⟩ 8 [65, 61, 98, 10, 10]) =
        some ([(some [65, 61, 98, 10, 10], [([65], [98], .String)])], .Clean)) ∧
    (∀ pf3 df3 f3 k w,
      runAll (fun _ : Nat => 1) pf3 df3 f3 k
        (JournalExportRead.mk0 ⟨100, 100, 100⟩ 8 [65, 61, 98, 10, 10]) = some w →
        w = ([(some [65, 61, 98, 10, 10], [([65], [98], .String)])], .Clean))) :=
  ⟨⟨by decide, fun _ => Nat.one_pos, by decide⟩,
    c7_chunking_independence ⟨100, 100, 100⟩ [65, 61, 98, 10, 10] 8 (by decide)
      (fun _ : Nat => 1) (fun _ => Nat.one_pos) 32 3
      ([(some [65, 61, 98, 10, 10], [([65], [98], .String)])], .Clean) (by decide)⟩

/-- Every `Err` return of a parse step is either the `UnexpectedEof`
backpressure error — which leaves the parser completely unchanged — or
goes through `eof_and_return`, which moves the parser to the terminal
`Eof` state. -/
theorem parseStep_err (p q : JournalExportParser) (e : JournalExportReadError)
    (h : parseStep p = .Ret (q, .Err e)) :
    (e = .UnexpectedEof ∧ q = p ∧ p.cursor = p.buf.upper ∧
      p.buffer_state = .Filled ∧ p.parse_state ≠ .EntryStart) ∨
    q.parse_state = .Eof := by
  unfold parseStep at h
  by_cases hcb : p.cursor = p.buf.upper
  · rw [if_pos hcb] at h
    by_cases hf : p.buffer_state = .Filled
    · rw [if_pos hf] at h
      by_cases hes : p.parse_state = .EntryStart
      · rw [if_pos hes] at h
        injection h with h2
        injection h2 with ha hb
        exact absurd hb (by simp)
      · rw [if_neg hes] at h
        injection h with h2
        injection h2 with ha hb
        injection hb with hb2
        exact Or.inl ⟨hb2.symm, ha.symm, hcb, hf, hes⟩
    · rw [if_neg hf] at h
      cases hmr : p.buf.make_room with
      | none => rw [hmr] at h; exact absurd h (by simp)
      | some b =>
        rw [hmr] at h
        injection h with h2
        injection h2 with ha hb
        exact absurd hb (by simp)
  · rw [if_neg hcb] at h
    cases hread : p.buf.indexP p.cursor with
    | none => rw [hread] at h; exact absurd h (by simp)
    | some c =>
      rw [hread] at h
      cases hst : p.parse_state <;>
        simp only [hst, JournalExportParser.eof_and_return] at h <;>
        (try split_ifs at h)
      · injection h with h2; injection h2 with ha hb
        exact Or.inr (by rw [← ha])
      · injection h with h2; injection h2 with ha hb
        exact Or.inr (by rw [← ha])
      · injection h with h2; injection h2 with ha hb
        exact absurd hb (by simp)
      · injection h with h2; injection h2 with ha hb
        exact Or.inr (by rw [← ha])
      · injection h with h2; injection h2 with ha hb
        exact Or.inr (by rw [← ha])
      · injection h with h2; injection h2 with ha hb
        exact Or.inr (by rw [← ha])
      · injection h with h2; injection h2 with ha hb
        exact Or.inr (by rw [← ha])
      · injection h with h2; injection h2 with ha hb
        exact Or.inr (by rw [← ha])
      · injection h with h2; injection h2 with ha hb
        exact Or.inr (by rw [← ha])
      · injection h with h2; injection h2 with ha hb
        exact absurd hb (by simp)

/-- The `UnexpectedEof` failure leaves the parser unchanged, so the next
step repeats it. -/
theorem parseStep_uEof_repeat (q : JournalExportParser)
    (hcb : q.cursor = q.buf.upper) (hf : q.buffer_state = .Filled)
    (hes : q.parse_state ≠ .EntryStart) :
    parseStep q = .Ret (q, .Err .UnexpectedEof) := by
  unfold parseStep
  rw [if_pos hcb, if_pos hf, if_neg hes]

/-- In the terminal `Eof` state, the next step with a byte available
returns a clean `Eof` result, not an error. -/
theorem parseStep_eofState (q : JournalExportParser) (c : Byte)
    (hst : q.parse_state = .Eof) (hcb : q.cursor ≠ q.buf.upper)
    (hread : q.buf.indexP q.cursor = some c) :
    parseStep q = .Ret ({ q with buffer_state := .Underfilled }, .Eof) := by
  unfold parseStep
  rw [if_neg hcb, hread]
  simp only [hst]

/-- A failed parse either recorded `UnexpectedEof` while stuck at the
window end, or moved to the terminal `Eof` state. -/
theorem parseLoop_err_state :
    ∀ F (p q : JournalExportParser) (e : JournalExportReadError),
      parseLoop F p = some (q, .Err e) →
      (e = .UnexpectedEof ∧ q.cursor = q.buf.upper ∧ q.buffer_state = .Filled ∧
        q.parse_state ≠ .EntryStart) ∨ q.parse_state = .Eof := by
  intro F
  induction F with
  | zero => intro p q e h; simp [parseLoop] at h
  | succ n ih =>
    intro p q e h
    rw [parseLoop] at h
    cases hcs : parseStep p with
    | Panic => rw [hcs] at h; exact absurd h (by simp)
    | Ret r =>
      rw [hcs] at h
      obtain ⟨qx, resx⟩ := r
      obtain ⟨hA, hB⟩ : qx = q ∧ resx = .Err e := by simpa [Prod.ext_iff] using h
      subst hA; subst hB
      rcases parseStep_err p qx e hcs with ⟨he, hqp, h1, h2, h3⟩ | hEof
      · subst hqp
        exact Or.inl ⟨he, h1, h2, h3⟩
      · exact Or.inr hEof
    | Cont p2 =>
      rw [hcs] at h
      exact ih p2 q e h

/-- C5: corrected.  A scanning failure (`UnexpectedCharacter`,
`FieldNameTooLong`, `FieldValueTooLong`) does put the parser into the
terminal `Eof` state, but a subsequent `parse` call does not repeat the
recorded failure: with a byte available below the window end it returns a
clean `Eof` result.  Only the `UnexpectedEof` backpressure failure is
repeated, precisely because it does not enter the `Eof` state: it leaves
the parser unchanged, so the next call fails identically. -/
theorem c5_amended (F : Nat) (p q : JournalExportParser)
    (e : JournalExportReadError) (h : parseLoop F p = some (q, .Err e)) :
    (e ≠ .UnexpectedEof → q.parse_state = .Eof) ∧
    (q.parse_state = .Eof → ∀ c, q.buf.indexP q.cursor = some c →
      q.cursor ≠ q.buf.upper →
      parseLoop 1 q = some ({ q with buffer_state := .Underfilled }, .Eof)) ∧
    (e = .UnexpectedEof → q.parse_state ≠ .Eof →
      parseLoop 1 q = some (q, .Err .UnexpectedEof)) := by
  have hcase := parseLoop_err_state F p q e h
  refine ⟨?_, ?_, ?_⟩
  · intro hne
    rcases hcase with ⟨he, _, _, _⟩ | hEof
    · exact absurd he hne
    · exact hEof
  · intro hst c hread hcb
    rw [show (1 : Nat) = 0 + 1 from rfl, parseLoop,
      parseStep_eofState q c hst hcb hread]
  · intro he hnEof
    rcases hcase with ⟨_, h1, h2, h3⟩ | hEof
    · rw [show (1 : Nat) = 0 + 1 from rfl, parseLoop,
        parseStep_uEof_repeat q h1 h2 h3]
    · exact absurd hEof hnEof

theorem c5_witness :
    parseLoop 1 errorSampleParser =
      some (erredSampleParser, .Err (.UnexpectedCharacter 33)) ∧
    erredSampleParser.parse_state = .Eof ∧
    parseLoop 1 erredSampleParser =
      some ({ erredSampleParser with buffer_state := .Underfilled }, .Eof) :=
  ⟨by decide,
   (c5_amended 1 errorSampleParser erredSampleParser
      (.UnexpectedCharacter 33) (by decide)).1 (by decide),
   (c5_amended 1 errorSampleParser erredSampleParser
      (.UnexpectedCharacter 33) (by decide)).2.1 (by decide) 33 (by decide) (by decide)⟩

/-- Scanning a text value that keeps exceeding the configured limit: after
the byte that takes the value length to `max_field_value_size + 1` — all
scanned bytes being non-newline — the parse fails with
`FieldValueTooLong`, the cursor resting on that byte, before any
terminating newline has been seen. -/
theorem stringField_overflow :
    ∀ d (p : JournalExportParser), p.parse_state = .StringField →
      p.field_start + p.namelen + 1 ≤ p.cursor →
      p.cursor + d = p.field_start + p.namelen + 1 + p.limits.max_field_value_size →
      (∀ i, p.cursor ≤ i → i ≤ p.cursor + d → i < p.buf.upper ∧
        ∃ c, p.buf.indexP i = some c ∧ c ≠ NL) →
      ∃ q, parseLoop (d + 1) p = some (q, .Err .FieldValueTooLong) ∧
        q.parse_state = .Eof ∧
        q.cursor = p.field_start + p.namelen + 1 + p.limits.max_field_value_size := by
  intro d
  induction d with
  | zero =>
    intro p hst hfs hcur hbytes
    obtain ⟨hiu, c, hread, hcNL⟩ := hbytes p.cursor (le_refl _) (by omega)
    have hne : ¬(c == NL) = true := by
      simp only [beq_iff_eq]
      exact hcNL
    rw [parseLoop]
    unfold parseStep
    rw [if_neg (Nat.ne_of_lt hiu), hread]
    simp only [hst]
    rw [if_neg hne]
    rw [if_pos (show p.cursor + 1 - p.field_start - p.namelen - 1 >
      p.limits.max_field_value_size by omega)]
    simp only [JournalExportParser.eof_and_return]
    refine ⟨_, rfl, rfl, ?_⟩
    show p.cursor + 1 - 1 = p.field_start + p.namelen + 1 + p.limits.max_field_value_size
    omega
  | succ d ih =>
    intro p hst hfs hcur hbytes
    obtain ⟨hiu, c, hread, hcNL⟩ := hbytes p.cursor (le_refl _) (by omega)
    have hne : ¬(c == NL) = true := by
      simp only [beq_iff_eq]
      exact hcNL
    have hstep : parseStep p = .Cont { p with buffer_state := .Underfilled, cursor := p.cursor + 1, parse_state := .StringField } := by
      unfold parseStep
      rw [if_neg (Nat.ne_of_lt hiu), hread]
      simp only [hst]
      rw [if_neg hne]
      rw [if_neg (show ¬(p.cursor + 1 - p.field_start - p.namelen - 1 >
        p.limits.max_field_value_size) by omega)]
    rw [parseLoop, hstep]
    obtain ⟨q, hq, hqs, hqc⟩ := ih { p with buffer_state := .Underfilled, cursor := p.cursor + 1, parse_state := .StringField } rfl
      (by show p.field_start + p.namelen + 1 ≤ p.cursor + 1; omega)
      (by show p.cursor + 1 + d =
        p.field_start + p.namelen + 1 + p.limits.max_field_value_size; omega)
      (by intro i h1 h2
          refine hbytes i ?_ ?_
          · show p.cursor ≤ i
            have : p.cursor + 1 ≤ i := h1
            omega
          · have : i ≤ p.cursor + 1 + d := h2
            omega)
    exact ⟨q, hq, hqs, hqc⟩

/-- Decoding a declared binary length that exceeds the configured limit:
as soon as the window holds the 8-byte length field plus one further byte,
the parse fails with `FieldValueTooLong` with the cursor at the end of the
length field — no payload byte is consumed or waited for. -/
theorem bvl_declared_too_long (p : JournalExportParser)
    (hst : p.parse_state = .BinaryValueLen) (hoff : p.buf.offset = 0)
    (hcu : p.cursor < p.buf.upper)
    (hclamp : p.cursor ≤ p.field_start + p.namelen + 9)
    (hlt : p.field_start + p.namelen + 9 < p.buf.upper)
    (hupb : p.buf.upper ≤ p.buf.buf.length)
    (hbig : p.limits.max_field_value_size <
      leDecode (p.buf.sliceP (p.field_start + p.namelen + 1)
        (p.field_start + p.namelen + 9))) :
    ∃ q, parseLoop 1 p = some (q, .Err .FieldValueTooLong) ∧
      q.parse_state = .Eof ∧
      q.cursor = p.field_start + p.namelen + 9 ∧
      q.remaining = leDecode (p.buf.sliceP (p.field_start + p.namelen + 1)
        (p.field_start + p.namelen + 9)) := by
  have hcl : p.cursor < p.buf.buf.length := lt_of_lt_of_le hcu hupb
  have hread : p.buf.indexP p.cursor = some (p.buf.buf.get ⟨p.cursor, hcl⟩) := by
    unfold ShiftBuffer.indexP ShiftBuffer.relative_pos
    rw [hoff, Nat.sub_zero]
    exact List.get?_eq_get hcl
  have hmin : min p.buf.upper (p.field_start + p.namelen + 9) =
      p.field_start + p.namelen + 9 := min_eq_right (le_of_lt hlt)
  have hcondF : (decide (min p.buf.upper (p.field_start + p.namelen + 9) <
        p.field_start + p.namelen + 9) ||
      (min p.buf.upper (p.field_start + p.namelen + 9) == p.buf.upper)) = false := by
    simp only [Bool.or_eq_false_iff, decide_eq_false_iff_not, beq_eq_false_iff_ne, ne_eq]
    omega
  have hnorm : p.field_start + p.namelen + 9 - 8 = p.field_start + p.namelen + 1 := by
    omega
  have hlen8 : (p.buf.sliceP (p.field_start + p.namelen + 9 - 8)
      (p.field_start + p.namelen + 9)).length = 8 := by
    unfold ShiftBuffer.sliceP ShiftBuffer.relative_pos
    rw [hoff]
    simp only [Nat.sub_zero, List.length_take, List.length_drop]
    omega
  rw [show (1 : Nat) = 0 + 1 from rfl, parseLoop]
  unfold parseStep
  rw [if_neg (Nat.ne_of_lt hcu), hread]
  simp only [hst]
  rw [if_neg (show ¬(decide (min p.buf.upper (p.field_start + p.namelen + 9) <
        p.field_start + p.namelen + 9) ||
      (min p.buf.upper (p.field_start + p.namelen + 9) == p.buf.upper)) = true by
    rw [hcondF]; simp)]
  rw [if_pos hlen8]
  rw [if_pos (show leDecode (p.buf.sliceP (p.field_start + p.namelen + 9 - 8)
      (p.field_start + p.namelen + 9)) > p.limits.max_field_value_size by
    rw [hnorm]; exact hbig)]
  simp only [JournalExportParser.eof_and_return]
  refine ⟨_, rfl, rfl, ?_, ?_⟩
  · show min p.buf.upper (p.field_start + p.namelen + 9) =
      p.field_start + p.namelen + 9
    exact hmin
  · show leDecode (p.buf.sliceP (p.field_start + p.namelen + 9 - 8)
        (p.field_start + p.namelen + 9)) =
      leDecode (p.buf.sliceP (p.field_start + p.namelen + 1)
        (p.field_start + p.namelen + 9))
    rw [hnorm]

/-- C8: corrected.  The text-value half of the claim holds: a text value
whose length keeps exceeding `max_field_value_size` fails with
`FieldValueTooLong` on the byte that takes the value length to limit+1,
before any terminating newline is seen.  The binary half holds only once
the window contains one byte beyond the 8-byte declared length: then the
parse fails with `FieldValueTooLong` with the cursor at the end of the
length field, no payload byte consumed or waited for.  (If the input ends
directly after the length field, the parser instead reports
`UnexpectedEof` — see the counterexample.) -/
theorem c8_amended :
    (∀ d (p : JournalExportParser), p.parse_state = .StringField →
      p.field_start + p.namelen + 1 ≤ p.cursor →
      p.cursor + d = p.field_start + p.namelen + 1 + p.limits.max_field_value_size →
      (∀ i, p.cursor ≤ i → i ≤ p.cursor + d → i < p.buf.upper ∧
        ∃ c, p.buf.indexP i = some c ∧ c ≠ NL) →
      ∃ q, parseLoop (d + 1) p = some (q, .Err .FieldValueTooLong) ∧
        q.parse_state = .Eof ∧
        q.cursor = p.field_start + p.namelen + 1 + p.limits.max_field_value_size) ∧
    (∀ p : JournalExportParser, p.parse_state = .BinaryValueLen →
      p.buf.offset = 0 → p.cursor < p.buf.upper →
      p.cursor ≤ p.field_start + p.namelen + 9 →
      p.field_start + p.namelen + 9 < p.buf.upper →
      p.buf.upper ≤ p.buf.buf.length →
      p.limits.max_field_value_size <
        leDecode (p.buf.sliceP (p.field_start + p.namelen + 1)
          (p.field_start + p.namelen + 9)) →
      ∃ q, parseLoop 1 p = some (q, .Err .FieldValueTooLong) ∧
        q.parse_state = .Eof ∧
        q.cursor = p.field_start + p.namelen + 9 ∧
        q.remaining = leDecode (p.buf.sliceP (p.field_start + p.namelen + 1)
          (p.field_start + p.namelen + 9))) :=
  ⟨stringField_overflow,
   fun p hst hoff hcu hclamp hlt hupb hbig =>
     bvl_declared_too_long p hst hoff hcu hclamp hlt hupb hbig⟩

theorem c8_witness :
    ((∃ q, parseLoop 3 stringOverflowParser = some (q, .Err .FieldValueTooLong) ∧
      q.parse_state = .Eof ∧ q.cursor = 4) ∧
     (∃ q, parseLoop 1 binaryOverflowParser = some (q, .Err .FieldValueTooLong) ∧
      q.parse_state = .Eof ∧ q.cursor = 10 ∧
      q.remaining = leDecode (binaryOverflowParser.buf.sliceP 2 10))) :=
  ⟨c8_amended.1 2 stringOverflowParser (by decide) (by decide) (by decide)
    (by intro i h1 h2
        have hcv : stringOverflowParser.cursor = 2 := rfl
        rw [hcv] at h1 h2
        have hi : i = 2 ∨ i = 3 ∨ i = 4 := by omega
        rcases hi with rfl | rfl | rfl <;> exact ⟨by decide, 98, by decide, by decide⟩),
   c8_amended.2 binaryOverflowParser (by decide) (by decide) (by decide) (by decide)
    (by decide) (by decide) (by decide)⟩

theorem Reaches.refl (lim : JournalExportLimits) (input : List Byte) (bound : Nat)
    (s : Core) : Reaches lim input bound s s :=
  fun F r h => ⟨F, h⟩

theorem Reaches.step {lim : JournalExportLimits} {input : List Byte} {bound : Nat}
    {s s1 s2 : Core} (h1 : coreStep lim input bound s = .Cont s1)
    (h2 : Reaches lim input bound s1 s2) : Reaches lim input bound s s2 := by
  intro F r h
  obtain ⟨F2, h3⟩ := h2 F r h
  exact ⟨F2 + 1, by rw [coreRun, h1]; exact h3⟩

theorem Reaches.trans {lim : JournalExportLimits} {input : List Byte} {bound : Nat}
    {s s1 s2 : Core} (h1 : Reaches lim input bound s s1)
    (h2 : Reaches lim input bound s1 s2) : Reaches lim input bound s s2 := by
  intro F r h
  obtain ⟨F2, h3⟩ := h2 F r h
  exact h1 F2 r h3

theorem bytesAt_cons {input : List Byte} {pos : Nat} {c : Byte} {bs : List Byte}
    (h : bytesAt input pos (c :: bs)) :
    input.get? pos = some c ∧ pos < input.length ∧ bytesAt input (pos + 1) bs := by
  obtain ⟨hlen, hget⟩ := h
  refine ⟨?_, ?_, ?_, ?_⟩
  · have := hget 0 (by simp)
    simpa using this
  · simp only [List.length_cons] at hlen
    omega
  · simp only [List.length_cons] at hlen
    omega
  · intro i hi
    have := hget (i + 1) (by simp; omega)
    rw [show pos + (i + 1) = pos + 1 + i by omega] at this
    simpa using this

theorem bytesAt_append {input : List Byte} {pos : Nat} {a b : List Byte}
    (h : bytesAt input pos (a ++ b)) :
    bytesAt input pos a ∧ bytesAt input (pos + a.length) b := by
  obtain ⟨hlen, hget⟩ := h
  rw [List.length_append] at hlen
  refine ⟨⟨by omega, ?_⟩, ⟨by omega, ?_⟩⟩
  · intro i hi
    have := hget i (by rw [List.length_append]; omega)
    rw [this, List.get?_append hi]
  · intro i hi
    have := hget (a.length + i) (by rw [List.length_append]; omega)
    rw [show pos + (a.length + i) = pos + a.length + i by omega] at this
    rw [this, List.get?_append_right (by omega)]
    congr 1
    omega

theorem bytesAt_sliceL {input : List Byte} {pos : Nat} {bs : List Byte}
    (h : bytesAt input pos bs) : sliceL input pos (pos + bs.length) = bs := by
  obtain ⟨hlen, hget⟩ := h
  unfold sliceL
  rw [show pos + bs.length - pos = bs.length by omega]
  apply List.ext_get?
  intro i
  by_cases hi : i < bs.length
  · rw [List.get?_take hi, List.get?_drop]
    exact hget i hi
  · have h1 : ((input.drop pos).take bs.length).length ≤ i := by
      rw [List.length_take, List.length_drop]
      omega
    rw [List.get?_eq_none.2 h1, List.get?_eq_none.2 (by omega)]

theorem le8_length (k : Nat) : (le8 k).length = 8 := by
  unfold le8
  rw [List.length_map, List.length_range]

theorem leDecode_le8 {k : Nat} (h : k < 2 ^ 64) : leDecode (le8 k) = k := by
  have he : le8 k = [k / 1 % 256, k / 256 % 256, k / 65536 % 256,
      k / 16777216 % 256, k / 4294967296 % 256, k / 1099511627776 % 256,
      k / 281474976710656 % 256, k / 72057594037927936 % 256] := rfl
  rw [he]
  simp only [leDecode]
  omega

theorem headByte_not_NL {c : Byte} (h : (isAlphaB c || c == 95) = true) :
    (c == NL) = false := by
  simp only [isAlphaB, Bool.or_eq_true, Bool.and_eq_true, decide_eq_true_eq,
    beq_iff_eq] at h
  simp only [beq_eq_false_iff_ne, ne_eq, NL]
  intro hc
  subst hc
  rcases h with (⟨h1, h2⟩ | ⟨h1, h2⟩) | h1
  · exact absurd h1 (by decide)
  · exact absurd h1 (by decide)
  · exact absurd h1 (by decide)

theorem headByte_alnum {c : Byte} (h : (isAlphaB c || c == 95) = true) :
    (isAlnumB c || c == 95) = true := by
  rcases Bool.or_eq_true_iff.1 h with h1 | h1
  · exact Bool.or_eq_true_iff.2 (Or.inl (by rw [isAlnumB, h1, Bool.true_or]))
  · exact Bool.or_eq_true_iff.2 (Or.inr h1)

theorem nameByte_not_NL {c : Byte} (h : (isAlnumB c || c == 95) = true) :
    (c == NL) = false := by
  simp only [isAlnumB, isAlphaB, Bool.or_eq_true, Bool.and_eq_true,
    decide_eq_true_eq, beq_iff_eq] at h
  simp only [beq_eq_false_iff_ne, ne_eq, NL]
  intro hc
  subst hc
  rcases h with ((⟨h1, h2⟩ | ⟨h1, h2⟩) | ⟨h1, h2⟩) | h1
  · exact absurd h1 (by decide)
  · exact absurd h1 (by decide)
  · exact absurd h1 (by decide)
  · exact absurd h1 (by decide)

theorem nameByte_not_61 {c : Byte} (h : (isAlnumB c || c == 95) = true) :
    (c == 61) = false := by
  simp only [isAlnumB, isAlphaB, Bool.or_eq_true, Bool.and_eq_true,
    decide_eq_true_eq, beq_iff_eq] at h
  simp only [beq_eq_false_iff_ne, ne_eq]
  intro hc
  subst hc
  rcases h with ((⟨h1, h2⟩ | ⟨h1, h2⟩) | ⟨h1, h2⟩) | h1
  · exact absurd h1 (by decide)
  · exact absurd h1 (by decide)
  · exact absurd h2 (by decide)
  · exact absurd h1 (by decide)
theorem bytesAt_head {input : List Byte} {pos : Nat} {bs : List Byte}
    (h : bytesAt input pos bs) (hne : 0 < bs.length) :
    ∃ c, input.get? pos = some c ∧ pos < input.length := by
  obtain ⟨hlen, hget⟩ := h
  have h0 := hget 0 hne
  rw [Nat.add_zero] at h0
  exact ⟨bs.get ⟨0, hne⟩, by rw [h0]; exact List.get?_eq_get hne, by omega⟩

/-- Scanning the tail of a field name from the `Fieldname` state: the
scanner consumes the remaining alphanumeric name bytes and the terminator
(`=` into `StringField`, newline into `BinaryValueLen`), recording the
name length. -/
theorem scanName (lim : JournalExportLimits) (input : List Byte) :
    ∀ (rest : List Byte) (s : Core) (term : Byte) (st2 : ParserState) (n1 : Nat),
      s.state = .Fieldname →
      s.cursor = s.field_start + n1 → 1 ≤ n1 →
      n1 + rest.length ≤ lim.max_field_name_len →
      (∀ c ∈ rest, (isAlnumB c || c == 95) = true) →
      ((term = 61 ∧ st2 = .StringField) ∨ (term = NL ∧ st2 = .BinaryValueLen)) →
      bytesAt input s.cursor (rest ++ [term]) →
      ∃ s2, Reaches lim input input.length s s2 ∧ s2.state = st2 ∧
        s2.cursor = s.cursor + rest.length + 1 ∧
        s2.namelen = n1 + rest.length ∧
        s2.field_start = s.field_start ∧
        s2.offsets = s.offsets := by
  intro rest
  induction rest with
  | nil =>
    intro s term st2 n1 hst hcur hn1 hmax hchars hterm hb
    obtain ⟨hget, hlt, _⟩ := bytesAt_cons (show bytesAt input s.cursor (term :: []) by
      simpa using hb)
    have hnottoolong : ¬(s.cursor - s.field_start > lim.max_field_name_len) := by
      simp only [List.length_nil] at hmax
      omega
    rcases hterm with ⟨h61, hst2⟩ | ⟨hNL, hst2⟩
    · have hstep : coreStep lim input input.length s =
          .Cont { s with namelen := s.cursor - s.field_start,
                         cursor := s.cursor + 1, state := .StringField } := by
        unfold coreStep
        rw [if_neg (Nat.ne_of_lt hlt), hget]
        simp only [hst]
        rw [if_neg hnottoolong]
        rw [if_neg (show ¬(isAlnumB term || term == 95) = true by
          subst h61; decide)]
        rw [if_pos (show (term == 61) = true by subst h61; decide)]
      subst hst2
      refine ⟨_, Reaches.step hstep (Reaches.refl lim input input.length _),
        rfl, ?_, ?_, rfl, rfl⟩
      · show s.cursor + 1 = s.cursor + ([] : List Byte).length + 1
        simp
      · show s.cursor - s.field_start = n1 + ([] : List Byte).length
        simp only [List.length_nil]
        omega
    · have hstep : coreStep lim input input.length s =
          .Cont { s with namelen := s.cursor - s.field_start,
                         cursor := s.cursor + 1, state := .BinaryValueLen } := by
        unfold coreStep
        rw [if_neg (Nat.ne_of_lt hlt), hget]
        simp only [hst]
        rw [if_neg hnottoolong]
        rw [if_neg (show ¬(isAlnumB term || term == 95) = true by
          subst hNL; decide)]
        rw [if_neg (show ¬(term == 61) = true by subst hNL; decide)]
        rw [if_pos (show (term == NL) = true by subst hNL; decide)]
      subst hst2
      refine ⟨_, Reaches.step hstep (Reaches.refl lim input input.length _),
        rfl, ?_, ?_, rfl, rfl⟩
      · show s.cursor + 1 = s.cursor + ([] : List Byte).length + 1
        simp
      · show s.cursor - s.field_start = n1 + ([] : List Byte).length
        simp only [List.length_nil]
        omega
  | cons c rest ih =>
    intro s term st2 n1 hst hcur hn1 hmax hchars hterm hb
    obtain ⟨hget, hlt, hb2⟩ := bytesAt_cons (show bytesAt input s.cursor
      (c :: (rest ++ [term])) by simpa using hb)
    have hc := hchars c (by simp)
    have hnottoolong : ¬(s.cursor - s.field_start > lim.max_field_name_len) := by
      simp only [List.length_cons] at hmax
      omega
    have hstep : coreStep lim input input.length s =
        .Cont { s with namelen := s.cursor - s.field_start,
                       cursor := s.cursor + 1, state := .Fieldname } := by
      unfold coreStep
      rw [if_neg (Nat.ne_of_lt hlt), hget]
      simp only [hst]
      rw [if_neg hnottoolong]
      rw [if_pos hc]
    obtain ⟨s2, hr, hsst, hscur, hsnl, hsfs, hsoff⟩ :=
      ih { s with namelen := s.cursor - s.field_start,
                  cursor := s.cursor + 1, state := .Fieldname }
        term st2 (n1 + 1) rfl
        (by show s.cursor + 1 = s.field_start + (n1 + 1); omega)
        (by omega)
        (by simp only [List.length_cons] at hmax
            show n1 + 1 + rest.length ≤ lim.max_field_name_len
            omega)
        (fun b hbm => hchars b (by simp [hbm]))
        hterm
        (by show bytesAt input (s.cursor + 1) (rest ++ [term]); exact hb2)
    refine ⟨s2, Reaches.step hstep hr, hsst, ?_, ?_, hsfs, hsoff⟩
    · have : s2.cursor = s.cursor + 1 + rest.length + 1 := hscur
      simp only [List.length_cons]
      omega
    · have : s2.namelen = n1 + 1 + rest.length := hsnl
      simp only [List.length_cons]
      omega

/-- Scanning a conformant text value from the `StringField` state: the
scanner consumes the value bytes and the terminating newline, and records
the field offset. -/
theorem scanText (lim : JournalExportLimits) (input : List Byte) :
    ∀ (v : List Byte) (s : Core) (j : Nat),
      s.state = .StringField →
      s.cursor = s.field_start + s.namelen + 1 + j →
      j + v.length ≤ lim.max_field_value_size →
      (∀ c ∈ v, c ≠ NL) →
      bytesAt input s.cursor (v ++ [NL]) →
      ∃ s2, Reaches lim input input.length s s2 ∧ s2.state = .FieldStart ∧
        s2.cursor = s.cursor + v.length + 1 ∧
        s2.offsets = s.offsets ++ [⟨s.field_start, s.namelen, .String⟩] := by
  intro v
  induction v with
  | nil =>
    intro s j hst hcur hmax hnoNL hb
    obtain ⟨hget, hlt, _⟩ := bytesAt_cons (show bytesAt input s.cursor (NL :: []) by
      simpa using hb)
    have hstep : coreStep lim input input.length s =
        .Cont { s with cursor := s.cursor + 1,
                       offsets := s.offsets ++ [⟨s.field_start, s.namelen, .String⟩],
                       state := .FieldStart } := by
      unfold coreStep
      rw [if_neg (Nat.ne_of_lt hlt), hget]
      simp only [hst]
      rw [if_pos (show (NL == NL) = true by decide)]
    refine ⟨_, Reaches.step hstep (Reaches.refl lim input input.length _),
      rfl, ?_, rfl⟩
    show s.cursor + 1 = s.cursor + ([] : List Byte).length + 1
    simp
  | cons c v ih =>
    intro s j hst hcur hmax hnoNL hb
    obtain ⟨hget, hlt, hb2⟩ := bytesAt_cons (show bytesAt input s.cursor
      (c :: (v ++ [NL])) by simpa using hb)
    have hcNL : (c == NL) = false := by
      simp only [beq_eq_false_iff_ne, ne_eq]
      exact hnoNL c (by simp)
    have hnottoolong : ¬(s.cursor + 1 - s.field_start - s.namelen - 1 >
        lim.max_field_value_size) := by
      simp only [List.length_cons] at hmax
      omega
    have hstep : coreStep lim input input.length s =
        .Cont { s with cursor := s.cursor + 1, state := .StringField } := by
      unfold coreStep
      rw [if_neg (Nat.ne_of_lt hlt), hget]
      simp only [hst]
      rw [if_neg (show ¬(c == NL) = true by rw [hcNL]; simp)]
      rw [if_neg hnottoolong]
    obtain ⟨s2, hr, hsst, hscur, hsoff⟩ :=
      ih { s with cursor := s.cursor + 1, state := .StringField } (j + 1) rfl
        (by show s.cursor + 1 = s.field_start + s.namelen + 1 + (j + 1); omega)
        (by simp only [List.length_cons] at hmax
            show j + 1 + v.length ≤ lim.max_field_value_size
            omega)
        (fun b hbm => hnoNL b (by simp [hbm]))
        (by show bytesAt input (s.cursor + 1) (v ++ [NL]); exact hb2)
    refine ⟨s2, Reaches.step hstep hr, hsst, ?_, hsoff⟩
    have : s2.cursor = s.cursor + 1 + v.length + 1 := hscur
    simp only [List.length_cons]
    omega

/-- Scanning a conformant binary value from the `BinaryValueLen` state
(entered right after the name's newline, with the length field, the
payload and the terminating newline in the input): the scanner decodes the
declared length, jumps over the payload, consumes the newline and records
the field offset. -/
theorem scanBinary (lim : JournalExportLimits) (input : List Byte) :
    ∀ (p : List Byte) (s : Core),
      s.state = .BinaryValueLen →
      s.cursor = s.field_start + s.namelen + 1 →
      p.length ≤ lim.max_field_value_size → p.length < 2 ^ 64 →
      bytesAt input s.cursor (le8 p.length ++ (p ++ [NL])) →
      ∃ s2, Reaches lim input input.length s s2 ∧ s2.state = .FieldStart ∧
        s2.cursor = s.cursor + 8 + p.length + 1 ∧
        s2.offsets = s.offsets ++ [⟨s.field_start, s.namelen, .Binary⟩] := by
  intro p s hst hcur hmax hfit hb
  obtain ⟨hbLen, hbRest⟩ := bytesAt_append hb
  rw [le8_length] at hbRest
  obtain ⟨hbP, hbNL⟩ := bytesAt_append hbRest
  obtain ⟨hgNL, hltNL, _⟩ := bytesAt_cons (show bytesAt input
    (s.cursor + 8 + p.length) (NL :: []) by simpa using hbNL)
  obtain ⟨c0, hg0, hlt0⟩ := bytesAt_head hb (by simp [le8_length])
  have hslice : sliceL input s.cursor (s.cursor + 8) = le8 p.length := by
    have := bytesAt_sliceL hbLen
    rw [le8_length] at this
    exact this
  have heq9 : s.field_start + s.namelen + 9 = s.cursor + 8 := by omega
  have heq1 : s.field_start + s.namelen + 9 - 8 = s.cursor := by omega
  have hmin : min input.length (s.field_start + s.namelen + 9) =
      s.field_start + s.namelen + 9 := by
    rw [heq9]
    exact min_eq_right (by omega)
  have hcondF : ¬(decide (min input.length (s.field_start + s.namelen + 9) <
        s.field_start + s.namelen + 9) ||
      (min input.length (s.field_start + s.namelen + 9) == input.length)) = true := by
    rw [hmin]
    simp only [Bool.or_eq_true, decide_eq_true_eq, beq_iff_eq]
    push_neg
    constructor
    · omega
    · omega
  have hlen8 : (sliceL input (s.field_start + s.namelen + 9 - 8)
      (s.field_start + s.namelen + 9)).length = 8 := by
    rw [heq1, heq9, hslice, le8_length]
  have hdec : leDecode (sliceL input (s.field_start + s.namelen + 9 - 8)
      (s.field_start + s.namelen + 9)) = p.length := by
    rw [heq1, heq9, hslice]
    exact leDecode_le8 hfit
  have hstep1 : coreStep lim input input.length s =
      .Cont { s with cursor := s.cursor + 8, remaining := p.length,
                     state := .BinaryValue } := by
    unfold coreStep
    rw [if_neg (Nat.ne_of_lt hlt0), hg0]
    simp only [hst]
    rw [if_neg hcondF]
    rw [if_pos hlen8]
    rw [if_neg (show ¬(leDecode (sliceL input (s.field_start + s.namelen + 9 - 8)
        (s.field_start + s.namelen + 9)) > lim.max_field_value_size) by
      rw [hdec]; omega)]
    congr 1
    simp only [Core.mk.injEq, true_and, and_true]
    constructor
    · rw [hmin, heq9]
    · rw [hdec]
  cases p with
  | nil =>
    have hstep2 : coreStep lim input input.length
        { s with cursor := s.cursor + 8, remaining := ([] : List Byte).length,
                 state := .BinaryValue } =
        .Cont { s with cursor := s.cursor + 8 + 1,
                       remaining := ([] : List Byte).length,
                       offsets := s.offsets ++ [⟨s.field_start, s.namelen, .Binary⟩],
                       state := .FieldStart } := by
      unfold coreStep
      rw [if_neg (show ¬(s.cursor + 8 = input.length) by
        simp only [List.length_nil, Nat.add_zero] at hltNL
        omega)]
      rw [show input.get? (s.cursor + 8) = some NL by
        simp only [List.length_nil, Nat.add_zero] at hgNL
        exact hgNL]
      simp only []
      rw [if_neg (show ¬(s.cursor + 8 < s.field_start + s.namelen + 9 +
        ([] : List Byte).length) by simp only [List.length_nil]; omega)]
      rw [if_neg (show ¬(NL ≠ NL) by simp)]
    refine ⟨_, Reaches.step hstep1 (Reaches.step hstep2
      (Reaches.refl lim input input.length _)), rfl, ?_, rfl⟩
    show s.cursor + 8 + 1 = s.cursor + 8 + ([] : List Byte).length + 1
    simp
  | cons q qs =>
    obtain ⟨cq, hgq, hltq⟩ := bytesAt_head hbP (by simp)
    have hstep2 : coreStep lim input input.length
        { s with cursor := s.cursor + 8, remaining := (q :: qs).length,
                 state := .BinaryValue } =
        .Cont { s with cursor := s.cursor + 8 + (q :: qs).length,
                       remaining := (q :: qs).length, state := .BinaryValue } := by
      unfold coreStep
      rw [if_neg (show ¬(s.cursor + 8 = input.length) by omega)]
      rw [hgq]
      simp only []
      rw [if_pos (show s.cursor + 8 < s.field_start + s.namelen + 9 +
        (q :: qs).length by simp only [List.length_cons]; omega)]
      congr 1
      simp only [Core.mk.injEq, true_and, and_true]
      rw [heq9]
      exact min_eq_right (by simp only [List.length_cons] at hltNL ⊢; omega)
    have hstep3 : coreStep lim input input.length
        { s with cursor := s.cursor + 8 + (q :: qs).length,
                 remaining := (q :: qs).length, state := .BinaryValue } =
        .Cont { s with cursor := s.cursor + 8 + (q :: qs).length + 1,
                       remaining := (q :: qs).length,
                       offsets := s.offsets ++ [⟨s.field_start, s.namelen, .Binary⟩],
                       state := .FieldStart } := by
      unfold coreStep
      rw [if_neg (show ¬(s.cursor + 8 + (q :: qs).length = input.length) by omega)]
      rw [hgNL]
      simp only []
      rw [if_neg (show ¬(s.cursor + 8 + (q :: qs).length <
        s.field_start + s.namelen + 9 + (q :: qs).length) by omega)]
      rw [if_neg (show ¬(NL ≠ NL) by simp)]
    exact ⟨_, Reaches.step hstep1 (Reaches.step hstep2 (Reaches.step hstep3
      (Reaches.refl lim input input.length _))), rfl, rfl, rfl⟩
/-- Scanning one conformant field from an entry or field boundary: the
scanner consumes exactly the field's wire bytes, returns to `FieldStart`,
and appends one offset starting at the field's first byte. -/
theorem scanField (lim : JournalExportLimits) (input : List Byte)
    (fv : FieldV) (s : Core)
    (hst : (s.state = .EntryStart ∧ entryHeadAlpha [fv]) ∨ s.state = .FieldStart)
    (hval : validField lim fv)
    (hb : bytesAt input s.cursor (FieldV.bytes fv)) :
    ∃ s2, Reaches lim input input.length s s2 ∧ s2.state = .FieldStart ∧
      s2.cursor = s.cursor + (FieldV.bytes fv).length ∧
      ∃ nl0 t0, s2.offsets = s.offsets ++ [⟨s.cursor, nl0, t0⟩] := by
  cases fv with
  | text n v =>
    obtain ⟨⟨c0, n2, hn, hhead⟩, hall, hnlen, hvNL, hvlen⟩ := hval
    rw [show FieldV.bytes (.text n v) = n ++ (61 :: (v ++ [NL])) from rfl, hn] at hb
    obtain ⟨hg0, hlt0, hb2⟩ := bytesAt_cons (show bytesAt input s.cursor
      (c0 :: (n2 ++ (61 :: (v ++ [NL])))) by simpa using hb)
    obtain ⟨s1, hstep1, hs1st, hs1fs, hs1cur, hs1off, hs1nl, hs1rem⟩ :
        ∃ s1, coreStep lim input input.length s = .Cont s1 ∧
          s1.state = .Fieldname ∧ s1.field_start = s.cursor ∧
          s1.cursor = s.cursor + 1 ∧ s1.offsets = s.offsets ∧
          s1.namelen = s.namelen ∧ s1.remaining = s.remaining := by
      rcases hst with ⟨hst, hA⟩ | hst
      · obtain ⟨c0x, n2x, hnx, hheadx⟩ := hA
        simp only [FieldV.name] at hnx
        rw [hn] at hnx
        have hheadc : (isAlphaB c0 || c0 == 95) = true := by
          rw [List.cons.injEq] at hnx
          rw [hnx.1]
          exact hheadx
        refine ⟨{ s with entry_start := s.cursor, field_start := s.cursor, cursor := s.cursor + 1, state := .Fieldname }, ?_, rfl, rfl, rfl, rfl, rfl, rfl⟩
        unfold coreStep
        rw [if_neg (Nat.ne_of_lt hlt0), hg0]
        simp only [hst]
        rw [if_pos hheadc]
      · refine ⟨{ s with field_start := s.cursor, cursor := s.cursor + 1, state := .Fieldname }, ?_, rfl, rfl, rfl, rfl, rfl, rfl⟩
        unfold coreStep
        rw [if_neg (Nat.ne_of_lt hlt0), hg0]
        simp only [hst]
        rw [if_neg (show ¬(c0 == NL) = true by rw [nameByte_not_NL hhead]; simp)]
        rw [if_pos hhead]
    rw [List.append_cons n2 61 (v ++ [NL])] at hb2
    obtain ⟨hbName, hbVal⟩ := bytesAt_append hb2
    obtain ⟨s3, hr3, hs3st, hs3cur, hs3nl, hs3fs, hs3off⟩ :=
      scanName lim input n2 s1 61 .StringField 1 hs1st (by omega) (le_refl 1)
        (by have : n.length = n2.length + 1 := by rw [hn]; simp
            omega)
        (fun b hbm => hall b (by rw [hn]; simp [hbm]))
        (Or.inl ⟨rfl, rfl⟩)
        (by rw [hs1cur]; exact hbName)
    obtain ⟨s4, hr4, hs4st, hs4cur, hs4off⟩ :=
      scanText lim input v s3 0 hs3st (by omega)
        (by have : n.length = n2.length + 1 := by rw [hn]; simp
            omega)
        hvNL
        (by rw [show s3.cursor = s.cursor + 1 + (n2.length + 1) by omega]
            simp only [List.length_append, List.length_cons] at hbVal
            exact hbVal)
    refine ⟨s4, (Reaches.step hstep1 hr3).trans hr4, hs4st, ?_, n.length, .String, ?_⟩
    · rw [hs4cur, hs3cur, hs1cur]
      rw [show FieldV.bytes (.text n v) = n ++ (61 :: (v ++ [NL])) from rfl, hn]
      simp only [List.length_append, List.length_cons, List.length_nil]
      omega
    · rw [hs4off, hs3off, hs1off, hs3fs, hs1fs, hs3nl]
      have : n.length = n2.length + 1 := by rw [hn]; simp
      rw [show 1 + n2.length = n.length by omega]
  | binary n p =>
    obtain ⟨⟨c0, n2, hn, hhead⟩, hall, hnlen, hplen, hfit⟩ := hval
    rw [show FieldV.bytes (.binary n p) = n ++ (NL :: (le8 p.length ++ (p ++ [NL])))
      from rfl, hn] at hb
    obtain ⟨hg0, hlt0, hb2⟩ := bytesAt_cons (show bytesAt input s.cursor
      (c0 :: (n2 ++ (NL :: (le8 p.length ++ (p ++ [NL]))))) by simpa using hb)
    obtain ⟨s1, hstep1, hs1st, hs1fs, hs1cur, hs1off, hs1nl, hs1rem⟩ :
        ∃ s1, coreStep lim input input.length s = .Cont s1 ∧
          s1.state = .Fieldname ∧ s1.field_start = s.cursor ∧
          s1.cursor = s.cursor + 1 ∧ s1.offsets = s.offsets ∧
          s1.namelen = s.namelen ∧ s1.remaining = s.remaining := by
      rcases hst with ⟨hst, hA⟩ | hst
      · obtain ⟨c0x, n2x, hnx, hheadx⟩ := hA
        simp only [FieldV.name] at hnx
        rw [hn] at hnx
        have hheadc : (isAlphaB c0 || c0 == 95) = true := by
          rw [List.cons.injEq] at hnx
          rw [hnx.1]
          exact hheadx
        refine ⟨{ s with entry_start := s.cursor, field_start := s.cursor, cursor := s.cursor + 1, state := .Fieldname }, ?_, rfl, rfl, rfl, rfl, rfl, rfl⟩
        unfold coreStep
        rw [if_neg (Nat.ne_of_lt hlt0), hg0]
        simp only [hst]
        rw [if_pos hheadc]
      · refine ⟨{ s with field_start := s.cursor, cursor := s.cursor + 1, state := .Fieldname }, ?_, rfl, rfl, rfl, rfl, rfl, rfl⟩
        unfold coreStep
        rw [if_neg (Nat.ne_of_lt hlt0), hg0]
        simp only [hst]
        rw [if_neg (show ¬(c0 == NL) = true by rw [nameByte_not_NL hhead]; simp)]
        rw [if_pos hhead]
    rw [List.append_cons n2 NL (le8 p.length ++ (p ++ [NL]))] at hb2
    obtain ⟨hbName, hbVal⟩ := bytesAt_append hb2
    obtain ⟨s3, hr3, hs3st, hs3cur, hs3nl, hs3fs, hs3off⟩ :=
      scanName lim input n2 s1 NL .BinaryValueLen 1 hs1st (by omega) (le_refl 1)
        (by have : n.length = n2.length + 1 := by rw [hn]; simp
            omega)
        (fun b hbm => hall b (by rw [hn]; simp [hbm]))
        (Or.inr ⟨rfl, rfl⟩)
        (by rw [hs1cur]; exact hbName)
    obtain ⟨s4, hr4, hs4st, hs4cur, hs4off⟩ :=
      scanBinary lim input p s3 hs3st (by omega) hplen hfit
        (by rw [show s3.cursor = s.cursor + 1 + (n2.length + 1) by omega]
            simp only [List.length_append, List.length_cons] at hbVal
            exact hbVal)
    refine ⟨s4, (Reaches.step hstep1 hr3).trans hr4, hs4st, ?_, n.length, .Binary, ?_⟩
    · rw [hs4cur, hs3cur, hs1cur]
      rw [show FieldV.bytes (.binary n p) = n ++ (NL :: (le8 p.length ++ (p ++ [NL])))
        from rfl, hn]
      simp only [List.length_append, List.length_cons, List.length_nil, le8_length]
      omega
    · rw [hs4off, hs3off, hs1off, hs3fs, hs1fs, hs3nl]
      have : n.length = n2.length + 1 := by rw [hn]; simp
      rw [show 1 + n2.length = n.length by omega]
/-- Scanning a run of conformant fields from a field boundary. -/
theorem scanFields (lim : JournalExportLimits) (input : List Byte) :
    ∀ (fs : List FieldV) (s : Core),
      s.state = .FieldStart →
      (∀ f ∈ fs, validField lim f) →
      bytesAt input s.cursor ((fs.map FieldV.bytes).flatten) →
      ∃ s2, Reaches lim input input.length s s2 ∧ s2.state = .FieldStart ∧
        s2.cursor = s.cursor + ((fs.map FieldV.bytes).flatten).length ∧
        ∃ tl, s2.offsets = s.offsets ++ tl := by
  intro fs
  induction fs with
  | nil =>
    intro s hst _ _
    refine ⟨s, Reaches.refl lim input input.length s, hst, ?_, [], ?_⟩
    · simp
    · simp
  | cons f t ih =>
    intro s hst hval hb
    rw [show ((f :: t).map FieldV.bytes).flatten =
      FieldV.bytes f ++ (t.map FieldV.bytes).flatten by simp] at hb
    obtain ⟨hbF, hbT⟩ := bytesAt_append hb
    obtain ⟨s1, hr1, hs1st, hs1cur, nl0, t0, hs1off⟩ :=
      scanField lim input f s (Or.inr hst) (hval f (by simp)) hbF
    obtain ⟨s2, hr2, hs2st, hs2cur, tl, hs2off⟩ :=
      ih s1 hs1st (fun g hg => hval g (by simp [hg]))
        (by rw [hs1cur]; exact hbT)
    refine ⟨s2, hr1.trans hr2, hs2st, ?_, ⟨s.cursor, nl0, t0⟩ :: tl, ?_⟩
    · have hlen : ((List.map FieldV.bytes (f :: t)).flatten).length =
          (FieldV.bytes f).length + ((List.map FieldV.bytes t).flatten).length := by
        rw [List.map_cons, List.flatten_cons, List.length_append]
      rw [hs2cur, hs1cur]
      omega
    · rw [hs2off, hs1off]
      simp

/-- Scanning one complete conformant entry: the scanner consumes the
fields and the blank-line terminator and returns `Ok`, with the cursor
one past the terminator and the first recorded offset starting at the
entry's first byte. -/
theorem scanEntry (lim : JournalExportLimits) (input : List Byte)
    (fs : List FieldV) (s : Core)
    (hst : s.state = .EntryStart ∨ s.state = .FieldStart)
    (hoff0 : s.offsets = [])
    (hval : validEntry lim fs)
    (hb : bytesAt input s.cursor (entryBytes fs)) :
    ∃ F s2, coreRun lim input input.length F s = some (s2, .Ok) ∧
      s2.state = .EntryStart ∧
      s2.cursor = s.cursor + (entryBytes fs).length ∧
      ∃ f0 tl, s2.offsets = f0 :: tl ∧ FieldOffset.start f0 = s.cursor := by
  obtain ⟨hne, hHA, hvalf⟩ := hval
  obtain ⟨f, t, rfl⟩ : ∃ f t, fs = f :: t := by
    cases fs with
    | nil => exact absurd rfl hne
    | cons f t => exact ⟨f, t, rfl⟩
  rw [show entryBytes (f :: t) =
    FieldV.bytes f ++ ((t.map FieldV.bytes).flatten ++ [NL]) by
      unfold entryBytes; simp] at hb
  obtain ⟨hbF, hbRest⟩ := bytesAt_append hb
  obtain ⟨hbT, hbNL⟩ := bytesAt_append hbRest
  obtain ⟨s1, hr1, hs1st, hs1cur, nl0, t0, hs1off⟩ :=
    scanField lim input f s
      (by rcases hst with h | h
          · exact Or.inl ⟨h, hHA⟩
          · exact Or.inr h)
      (hvalf f (by simp)) hbF
  obtain ⟨s2, hr2, hs2st, hs2cur, tl, hs2off⟩ :=
    scanFields lim input t s1 hs1st (fun g hg => hvalf g (by simp [hg]))
      (by rw [hs1cur]; exact hbT)
  obtain ⟨hgNL, hltNL, _⟩ := bytesAt_cons (show bytesAt input
    (s.cursor + (FieldV.bytes f).length + ((t.map FieldV.bytes).flatten).length)
    (NL :: []) by simpa using hbNL)
  have hoffsne : s2.offsets = ⟨s.cursor, nl0, t0⟩ :: tl := by
    rw [hs2off, hs1off, hoff0]
    simp
  have hstepOk : coreStep lim input input.length s2 =
      .Ret ({ s2 with cursor := s2.cursor + 1, state := .EntryStart }, .Ok) := by
    unfold coreStep
    rw [if_neg (show ¬(s2.cursor = input.length) by rw [hs2cur, hs1cur]; omega)]
    rw [show input.get? s2.cursor = some NL by rw [hs2cur, hs1cur]; exact hgNL]
    simp only [hs2st]
    rw [if_pos (show (NL == NL) = true by decide)]
    rw [if_neg (show ¬(s2.offsets.isEmpty = true) by rw [hoffsne]; simp)]
  obtain ⟨F, hF⟩ := (hr1.trans hr2) 1 (({ s2 with cursor := s2.cursor + 1, state := .EntryStart } : Core), .Ok) (by rw [coreRun, hstepOk])
  refine ⟨F, _, hF, rfl, ?_, ⟨s.cursor, nl0, t0⟩, tl, ?_, rfl⟩
  · show s2.cursor + 1 = s.cursor + (entryBytes (f :: t)).length
    rw [hs2cur, hs1cur]
    unfold entryBytes
    simp only [List.map_cons, List.length_append, List.length_cons, List.length_nil]
    simp
    omega
  · show ({ s2 with cursor := s2.cursor + 1, state := .EntryStart } : Core).offsets =
      _ :: tl
    rw [show ({ s2 with cursor := s2.cursor + 1, state := .EntryStart } : Core).offsets
      = s2.offsets from rfl, hoffsne]
/-- Running the core driver over a conformant stream of entries: each
entry parses `Ok` with its full wire bytes as the `as_bytes` view, and the
stream ends cleanly at the end of input. -/
theorem coreRunAllValid (lim : JournalExportLimits) (input : List Byte) :
    ∀ (entries : List (List FieldV)) (s : Core),
      (s.state = .EntryStart ∨ (s.state = .FieldStart ∧ entries ≠ [])) →
      (∀ e ∈ entries, validEntry lim e) →
      bytesAt input s.cursor ((entries.map entryBytes).flatten) →
      s.cursor + ((entries.map entryBytes).flatten).length = input.length →
      ∃ pf G obs, coreRunAll lim input pf G s = some (obs, .Clean) ∧
        obs.map Prod.fst = entries.map (fun e => some (entryBytes e)) := by
  intro entries
  induction entries with
  | nil =>
    intro s hst _ _ hend
    rcases hst with hst | ⟨_, hne⟩
    · have hcur : s.cursor = input.length := by
        simp only [List.map_nil, List.flatten_nil, List.length_nil] at hend
        omega
      refine ⟨1, 1, [], ?_, rfl⟩
      rw [show (1 : Nat) = 0 + 1 from rfl, coreRunAll]
      have hstep : coreStep lim input input.length
          { s with offsets := ([] : List FieldOffset) } =
          .Ret ({ s with offsets := ([] : List FieldOffset) }, .Suspend) := by
        unfold coreStep
        rw [if_pos (show ({ s with offsets := ([] : List FieldOffset) } : Core).cursor
          = input.length from hcur)]
      rw [show coreRun lim input input.length (0 + 1) { s with offsets := [] } =
        some ({ s with offsets := ([] : List FieldOffset) }, .Suspend) by
          rw [coreRun, hstep]]
      simp only []
      rw [if_pos (show ({ s with offsets := ([] : List FieldOffset) } : Core).state =
        .EntryStart from hst)]
    · exact absurd rfl hne
  | cons e rest ih =>
    intro s hst hval hb hend
    rw [List.map_cons, List.flatten_cons] at hb hend
    obtain ⟨hbE, hbR⟩ := bytesAt_append hb
    obtain ⟨F1, s2, hrun1, hs2st, hs2cur, f0, tl, hs2off, hf0s⟩ :=
      scanEntry lim input e { s with offsets := ([] : List FieldOffset) }
        (by rcases hst with h | ⟨h, _⟩
            · exact Or.inl h
            · exact Or.inr h)
        rfl (hval e (by simp))
        (by show bytesAt input s.cursor (entryBytes e); exact hbE)
    have hs2cur' : s2.cursor = s.cursor + (entryBytes e).length := hs2cur
    obtain ⟨pf2, G2, obs2, hrun2, hobs2⟩ :=
      ih s2 (Or.inl hs2st) (fun g hg => hval g (by simp [hg]))
        (by rw [hs2cur']; exact hbR)
        (by rw [hs2cur', List.length_append] at *; omega)
    refine ⟨max F1 pf2, G2 + 1, coreObserve input s2 :: obs2, ?_, ?_⟩
    · rw [coreRunAll]
      rw [coreRun_mono lim input input.length F1 (max F1 pf2) _ _
        (le_max_left F1 pf2) hrun1]
      simp only []
      rw [coreRunAll_mono lim input G2 G2 pf2 (max F1 pf2) s2 _
        (le_refl G2) (le_max_right F1 pf2) hrun2]
    · simp only [List.map_cons]
      congr 1
      · show (match s2.offsets with
          | [] => none
          | f :: _ => some (sliceL input f.start s2.cursor)) = some (entryBytes e)
        rw [hs2off]
        show some (sliceL input (FieldOffset.start f0) s2.cursor) = some (entryBytes e)
        rw [show FieldOffset.start f0 = s.cursor from hf0s, hs2cur']
        rw [bytesAt_sliceL hbE]
/-- C2: corrected.  For every conformant concatenation of entries in wire
format (non-empty, since the parser's initial state rejects an immediately
empty stream; field names alphanumeric-or-underscore, with only the
entry's FIRST field name required to start alphabetic or underscore, per
the grammar), driving the reader over the concatenation yields exactly
that many entries and ends cleanly, and each entry's `as_bytes()` view
equals that entry's original wire bytes with internal separators AND the
final blank-line terminator included (the cursor at yield time sits one
past the terminator, and `as_bytes` slices up to the cursor). -/
theorem c2_amended (lim : JournalExportLimits)
    (entries : List (List FieldV)) (bufSize : Nat) (hbs : 0 < bufSize)
    (σ : Nat → Nat) (hσ : ∀ i, 0 < σ i)
    (hne : entries ≠ []) (hval : ∀ e ∈ entries, validEntry lim e) :
    ∃ pf df f obs,
      runAll σ pf df f 0
        (JournalExportRead.mk0 lim bufSize ((entries.map entryBytes).flatten)) =
        some (obs, .Clean) ∧
      obs.map Prod.fst = entries.map (fun e => some (entryBytes e)) ∧
      obs.length = entries.length := by
  have hcur0 : (Core.of (JournalExportParser.new lim bufSize)).cursor = 0 := rfl
  obtain ⟨pf, G, obs, hrun, hmap⟩ :=
    coreRunAllValid lim ((entries.map entryBytes).flatten) entries
      (Core.of (JournalExportParser.new lim bufSize))
      (Or.inr ⟨rfl, hne⟩) hval
      (⟨by rw [hcur0]; omega, fun i hi => by rw [hcur0, Nat.zero_add]⟩)
      (by rw [hcur0]; omega)
  have hdi : DriverInv ((entries.map entryBytes).flatten)
      (JournalExportRead.mk0 lim bufSize ((entries.map entryBytes).flatten)) := by
    refine ⟨⟨rfl, rfl, Nat.zero_le _, Nat.zero_le _, rfl, Nat.le_refl 0⟩,
      (List.drop_zero _).symm, ?_, Or.inl rfl⟩
    show 0 < (List.replicate bufSize (0 : Byte)).length
    rw [List.length_replicate]
    exact hbs
  have hwf : CoreWF (Core.of (JournalExportParser.new lim bufSize)) := by
    unfold CoreWF
    refine ⟨fun f hf => absurd hf (List.not_mem_nil f), ?_, ?_, ?_⟩ <;>
      · intro hx
        simp only [Core.of, JournalExportParser.new] at hx
        exact absurd hx (by decide)
  obtain ⟨pf2, df2, f2, hR⟩ :=
    runAll_corr ((entries.map entryBytes).flatten) σ hσ G
      (JournalExportRead.mk0 lim bufSize ((entries.map entryBytes).flatten))
      0 pf (obs, .Clean) hdi hwf hrun
  refine ⟨pf2, df2, f2, obs, hR, hmap, ?_⟩
  have := congrArg List.length hmap
  simpa using this

theorem c2_witness :
    (([[FieldV.text [65] [98], FieldV.text [48] [99]]] : List (List FieldV)) ≠ [] ∧
      (∀ e ∈ ([[FieldV.text [65] [98], FieldV.text [48] [99]]] : List (List FieldV)),
        validEntry ⟨100, 100, 100⟩ e)) ∧
    ∃ pf df f obs,
      runAll (fun _ : Nat => 1) pf df f 0
        (JournalExportRead.mk0 ⟨100, 100, 100⟩ 8
          (([[FieldV.text [65] [98], FieldV.text [48] [99]]].map entryBytes).flatten)) =
        some (obs, .Clean) ∧
      obs.map Prod.fst =
        ([[FieldV.text [65] [98], FieldV.text [48] [99]]] : List (List FieldV)).map
          (fun e => some (entryBytes e)) ∧
      obs.length = 1 :=
  have hval : ∀ e ∈ ([[FieldV.text [65] [98], FieldV.text [48] [99]]] :
      List (List FieldV)), validEntry ⟨100, 100, 100⟩ e := by
    intro e he
    simp only [List.mem_singleton] at he
    subst he
    refine ⟨by decide, ⟨65, [], rfl, by decide⟩, ?_⟩
    intro f hf
    simp only [List.mem_cons, List.not_mem_nil, or_false] at hf
    rcases hf with rfl | rfl
    · exact ⟨⟨65, [], rfl, by decide⟩, by decide, by decide, by decide, by decide⟩
    · exact ⟨⟨48, [], rfl, by decide⟩, by decide, by decide, by decide, by decide⟩
  ⟨⟨by decide, hval⟩,
    c2_amended ⟨100, 100, 100⟩ [[FieldV.text [65] [98], FieldV.text [48] [99]]] 8
      (by decide) (fun _ : Nat => 1) (fun _ => Nat.one_pos) (by decide) hval⟩

end Loginus
